import Mathlib

/-!
Verification of the Reaction Instantiation & Reconciliation Engine of
OpenChemIE-refactored (`src/app/core/utils.py`) against its natural-language
specification.  Every definition below is a shallow embedding of the
corresponding Python function; line numbers in doc comments refer to
`src/app/core/utils.py`.
-/

namespace OpenChemIE

/-! ## `generate_subsets` (utils.py lines 485-494)

The Python function does a depth-first backtracking enumeration:

    def generate_subsets(n):
        subsets = []
        def backtrack(start, subset):
            subsets.append(list(subset))
            for i in range(start, n):
                subset.append(i)
                backtrack(i + 1, subset)
                subset.pop()
        backtrack(0, [])
        return subsets

`backtrack start subset` first emits `subset` itself, then for each
`i ∈ [start, n)` emits everything produced by `backtrack (i+1) (subset ++ [i])`.
We embed the `for` loop as `btLoop g i s`, where `g = n - i` is the number of
loop indices still to be visited (the quantity on which the Python recursion
terminates); `btLoop` returns the concatenation of all lists appended during
the remaining iterations of the loop, and `backtrack(start, s)` itself is
`s :: btLoop (n - start) start s`. -/

def btLoop : Nat → Nat → List Nat → List (List Nat)
  | 0, _, _ => []
  | g + 1, i, s => ((s ++ [i]) :: btLoop g (i + 1) (s ++ [i])) ++ btLoop g (i + 1) s

def generate_subsets (n : Nat) : List (List Nat) :=
  [] :: btLoop n 0 []

/-! ## Data model shared by the table-expansion cluster

Images, bounding boxes and 2-D coordinates are only carried around and copied
by the core (all pixel and coordinate computation happens in the external
services), so they are modelled as opaque handles. -/

/-- Opaque handle standing for a numpy image array. -/
abbrev Image : Type := Nat

/-- Opaque handle standing for a bounding box `[x1, y1, x2, y2]`. -/
abbrev BBox : Type := Nat

/-- Atom coordinates: stored and copied, never computed with. -/
abbrev Coord : Type := Int × Int

/-- The three keys of a reaction dictionary (`'reactants'`, `'conditions'`,
`'products'`), in the insertion order used throughout the pipeline. -/
inductive RKey where
  | reactants | conditions | products
deriving DecidableEq, Repr

/-- An entity dictionary as it occurs in the `reactants` / `conditions` /
`products` lists of a reaction.  Fields mirror the dict keys the core reads or
writes: `category`, `bbox` (for `'[Mol]'` entities), `smiles` (written back by
`get_replaced_reaction`), and the condition-entry keys `text` / `tag` /
`header` (utils.py lines 142-147). -/
structure EntD where
  category : String := ""
  bbox : BBox := 0
  smiles : Option String := none
  text : String := ""
  tag : String := ""
  header : String := ""

/-- A value stored in a reaction's entity lists: either an entity dict or a
nested list (condition lists become nested once `process_tables` wraps them,
utils.py lines 163-164). -/
inductive Ent where
  | dict : EntD → Ent
  | lst : List Ent → Ent

/-- A reaction dictionary `{'reactants': …, 'conditions': …, 'products': …}`. -/
structure Reaction where
  reactants : List Ent := []
  conditions : List Ent := []
  products : List Ent := []

/-- `reaction.items()` in the ordinary pipeline insertion order. -/
def Reaction.items (r : Reaction) : List (RKey × List Ent) :=
  [(RKey.reactants, r.reactants), (RKey.conditions, r.conditions),
   (RKey.products, r.products)]

def Reaction.getK (r : Reaction) : RKey → List Ent
  | RKey.reactants => r.reactants
  | RKey.conditions => r.conditions
  | RKey.products => r.products

def Reaction.setK (r : Reaction) : RKey → List Ent → Reaction
  | RKey.reactants, v => { r with reactants := v }
  | RKey.conditions, v => { r with conditions := v }
  | RKey.products, v => { r with products := v }

/-- Output element of the external recognizer (`molscribe.predict_images`,
utils.py line 189): per-molecule atoms and bonds. -/
structure PredAtom where
  x : Int
  y : Int
  atom_symbol : String

structure PredBond where
  endpoint_atoms : Nat × Nat
  bond_type : String

structure PredMol where
  atoms : List PredAtom
  bonds : List PredBond

/-- The molecular-graph record built by `get_atoms_and_bonds`
(utils.py lines 179-187): image crop, `chartok_coords` (coords + symbols),
`edges` adjacency matrix, and the `(role, index)` identity key. -/
structure MolGraph where
  image : Image
  coords : List Coord
  symbols : List String
  edges : List (List Nat)
  key : RKey × Nat

/-- The external-service bundle the cluster depends on: structure
recognition (`molscribe.predict_images`), canonical-structure re-derivation
(`molscribe.convert_graph_to_output`, whose `[0]['smiles']` entry is the only
part the core reads), and the numpy/cv2 image cropping used at
utils.py lines 176-178. -/
structure Scribe where
  predict_images : List Image → List PredMol
  convert_graph_to_output : MolGraph → Image → String
  crop : Image → BBox → Image

/-! ## `get_atoms_and_bonds` (utils.py lines 168-199) -/

/-- The `BOND_TO_INT` dictionary (utils.py lines 14-22).  Any other key raises
`KeyError` in the source; the recognizer only emits the seven keys below, and
no property proved here depends on the value assigned to an unknown key. -/
def BOND_TO_INT : String → Nat
  | "" => 0
  | "single" => 1
  | "double" => 2
  | "triple" => 3
  | "aromatic" => 4
  | "solid wedge" => 5
  | "dashed wedge" => 6
  | _ => 0

/-- `edges[i][j] = v` on a list-of-lists matrix (a write with `i` out of range
raises in the source; all writes proved about stay in range). -/
def setEdge (m : List (List Nat)) (i j v : Nat) : List (List Nat) :=
  m.set i ((m.getD i []).set j v)

/-- The bond-filling loop, utils.py lines 194-198: start from an `n × n` zero
matrix and write `BOND_TO_INT[bond_type]` at `(i, j)` and `(j, i)` for every
bond. -/
def fillEdges (n : Nat) (bonds : List PredBond) : List (List Nat) :=
  bonds.foldl
    (fun m b =>
      let i := b.endpoint_atoms.1
      let j := b.endpoint_atoms.2
      let v := BOND_TO_INT b.bond_type
      setEdge (setEdge m i j v) j i v)
    (List.replicate n (List.replicate n 0))

/-- Entry `(i, j)` of a list-of-lists matrix, with out-of-range defaults. -/
def get2 (m : List (List Nat)) (i j : Nat) : Nat := (m.getD i []).getD j 0

/-- Lines 190-198: populate one skeleton record from one recognizer output:
append each atom's coordinates and symbol, then build the bond matrix. -/
def fillGraph (mol : PredMol) (g : MolGraph) : MolGraph :=
  { g with
    coords := mol.atoms.map (fun a => (a.x, a.y)),
    symbols := mol.atoms.map (fun a => a.atom_symbol),
    edges := fillEdges mol.atoms.length mol.bonds }

/-- Lines 172-188: scan every entity list of the reaction in `items()` order;
for each dict entity of category `'[Mol]'`, crop its bounding box and create a
skeleton graph keyed by `(role, position)`. -/
def molSkeletons (scribe : Scribe) (image : Image) (r : Reaction) : List MolGraph :=
  r.items.flatMap (fun kv =>
    (kv.2.enum).filterMap (fun ie =>
      match ie.2 with
      | Ent.dict d =>
          if d.category = "[Mol]" then
            some { image := scribe.crop image d.bbox, coords := [], symbols := [],
                   edges := [], key := (kv.1, ie.1) }
          else none
      | Ent.lst _ => none))

/-- `get_atoms_and_bonds` (utils.py lines 168-199).  `zip(outputs, results)`
truncates to the shorter list; skeletons beyond the recognizer output stay
unfilled but are still returned. -/
def get_atoms_and_bonds (scribe : Scribe) (image : Image) (r : Reaction) :
    List MolGraph :=
  let results := molSkeletons scribe image r
  let outputs := scribe.predict_images (results.map (·.image))
  (outputs.zip results).map (fun p => fillGraph p.1 p.2) ++ results.drop outputs.length

/-! ## Regular-expression models

Both patterns are embedded as explicit leftmost-match backtracking matchers
with the same greedy/optional semantics as Python `re`. -/

/-- Python `\w` on the ASCII inputs this pipeline sees. -/
def isWordChar (c : Char) : Bool := c.isAlphanum || c = '_'

/-- Character class `[\w\d\.]` of the coreference pattern's label. -/
def isLabChar (c : Char) : Bool := isWordChar c || c = '.'

/-- Character class `[\[\]\w\d-]` of the coreference pattern's group. -/
def isGrpChar (c : Char) : Bool := isWordChar c || c = '[' || c = ']' || c = '-'

/-- Character class `[\w-]` of the table pattern's group. -/
def isGroupChar (c : Char) : Bool := isWordChar c || c = '-'

/-- First successful alternative, in backtracking order. -/
def firstSome {α β : Type} (f : α → Option β) : List α → Option β
  | [] => none
  | a :: as =>
      match f a with
      | some b => some b
      | none => firstSome f as

/-- `[m, m-1, …, 1]`: the lengths a greedy `+` quantifier tries, longest
first, when the maximal run has length `m`. -/
def greedyLens (m : Nat) : List Nat := (List.range m).map (fun k => m - k)

/-- Suffix `( \(\w+\))?$` of `r_group_pattern`: the remainder is empty, or is
exactly a space, an opening parenthesis, a nonempty word run, and a closing
parenthesis. -/
def rgSuffixOk (rest : List Char) : Bool :=
  match rest with
  | [] => true
  | ' ' :: '(' :: t =>
      let mid := t.takeWhile isWordChar
      decide (1 ≤ mid.length) && decide (t.drop mid.length = [')'])
  | _ => false

/-- Group-and-suffix part `(?P<group>[\w-]+)( \(\w+\))?$` of
`r_group_pattern`, returning the captured group. -/
def rgGroupThen (p : List Char) : Option String :=
  firstSome
    (fun glen => if rgSuffixOk (p.drop glen) then some (String.mk (p.take glen)) else none)
    (greedyLens (p.takeWhile isGroupChar).length)

/-- `re.match(r'^(\w+-)?(?P<group>[\w-]+)( \(\w+\))?$', s)` as used by
`process_tables` (utils.py lines 123, 149-151): optional `\w+-` prefix (greedy,
tried before its absence), captured group, optional parenthesised suffix,
anchored at both ends; returns the captured `group`. -/
def rGroupMatch (s : String) : Option String :=
  let cs := s.data
  let withPref :=
    firstSome
      (fun plen =>
        if cs.get? plen = some '-' then rgGroupThen (cs.drop (plen + 1)) else none)
      (greedyLens (cs.takeWhile isWordChar).length)
  match withPref with
  | some g => some g
  | none => rgGroupThen cs

/-- One anchored attempt of the coreference pattern
`(?P<label>[\w\d\.]+[abc]?)[,:]?[ ]+(?P<group>[\[\]\w\d-]+)`
(utils.py line 325) at the start of `cs`: returns
`(label, group, matched length)` for the first successful assignment in
backtracking order (label run longest first, each optional item tried
present-then-absent, space run longest first, group greedy). -/
def corefMatchAt (cs : List Char) : Option (String × String × Nat) :=
  firstSome
    (fun llen =>
      let after := cs.drop llen
      let abcOpts : List Nat :=
        match after with
        | c :: _ => if c = 'a' ∨ c = 'b' ∨ c = 'c' then [1, 0] else [0]
        | [] => [0]
      firstSome
        (fun o1 =>
          let after1 := after.drop o1
          let sepOpts : List Nat :=
            match after1 with
            | c :: _ => if c = ',' ∨ c = ':' then [1, 0] else [0]
            | [] => [0]
          firstSome
            (fun o2 =>
              let after2 := after1.drop o2
              firstSome
                (fun slen =>
                  let after3 := after2.drop slen
                  let glen := (after3.takeWhile isGrpChar).length
                  if 1 ≤ glen then
                    some (String.mk (cs.take (llen + o1)), String.mk (after3.take glen),
                          llen + o1 + o2 + slen + glen)
                  else none)
                (greedyLens (after2.takeWhile (· = ' ')).length))
            sepOpts)
        abcOpts)
    (greedyLens (cs.takeWhile isLabChar).length)

/-- `patt.finditer(text)`: scan left to right, report non-overlapping matches,
resuming after each match.  Every match consumes at least one character, so the
remaining length is a valid fuel. -/
def corefFindAll : Nat → List Char → List (String × String)
  | 0, _ => []
  | fuel + 1, cs =>
      match cs with
      | [] => []
      | _ :: _ =>
          match corefMatchAt cs with
          | some r => (r.1, r.2.1) :: corefFindAll fuel (cs.drop r.2.2)
          | none => corefFindAll fuel (cs.drop 1)

/-- Python dict assignment `d[k] = v`: overwrite in place if the key exists,
otherwise append. -/
def dictInsert (d : List (String × String)) (k v : String) : List (String × String) :=
  if d.any (fun p => p.1 = k) then d.map (fun p => if p.1 = k then (k, v) else p)
  else d ++ [(k, v)]

/-- The label→group extraction of `clean_corefs` (utils.py lines 325-331):
run the pattern over every identifier text and accumulate `label ↦ group`
into one dict. -/
def coref_assignments (texts : List String) : List (String × String) :=
  texts.foldl
    (fun d t =>
      (corefFindAll t.data.length t.data).foldl (fun d lg => dictInsert d lg.1 lg.2) d)
    []

/-! ## `find_relevant_groups` (utils.py lines 201-210) -/

/-- A table column `{'text': …, 'tag': …}`. -/
structure Col where
  text : String := ""
  tag : String := ""

/-- A table cell `{'text': …}`. -/
structure Cell where
  text : String := ""

/-- `figure['table']['content']`: ordered columns and rows of cells. -/
structure TContent where
  columns : List Col := []
  rows : List (List Cell) := []

/-- A figure record as consumed by `process_tables`: page number,
`figure['table']['content']` and `figure['figure']['image']`. -/
structure Fig where
  page : Nat := 0
  tableContent : Option TContent := none
  figImage : Image := 0

/-- A per-figure result record: the `page` key written by `process_tables` and
the growable `reactions` list. -/
structure Res where
  page : Option Nat := none
  reactions : List Reaction := []

/-- Python `atom[1:-1]`: strip the first and last character. -/
def strip1 (s : String) : String := String.mk ((s.data.drop 1).dropLast)

/-- `find_relevant_groups(graphs, columns)` (utils.py lines 201-210): for the
columns tagged `'alkyl group'`, bracket their header text and collect, per
graph, the `(stripped symbol, atom index)` pairs whose atom label is one of the
bracketed headers.  The source returns a dict keyed by the consecutive graph
indices `0 … len(graphs)-1`; it is modelled positionally. -/
def find_relevant_groups (graphs : List MolGraph) (columns : List Col) :
    List (List (String × Nat)) :=
  let r_groups := (columns.filter (fun c => c.tag = "alkyl group")).map
    (fun c => "[" ++ c.text ++ "]")
  graphs.map (fun g =>
    (g.symbols.enum).filterMap (fun ja =>
      if r_groups.contains ja.2 then some (strip1 ja.2, ja.1) else none))

/-! ## `get_replaced_reaction` (utils.py lines 212-252), value-level model

The source first builds `graph_copy` with copied `coords` / `symbols` / (outer)
`edges` lists (lines 213-223), relabels located atoms inside the copies
(lines 224-227), deep-copies the reaction (lines 228-246) and re-derives and
writes back the structure string of every copied graph (lines 248-251).  At
the level of values, copying is the identity; the aliasing discipline of the
copy (that the originals are untouched) is verified separately on the
reference-level model `get_replaced_reaction_heap` below. -/

/-- Lines 213-223: the per-graph copy (shallow copies of the `coords`,
`symbols` and `edges` lists). -/
def copyGraphs (graphs : List MolGraph) : List MolGraph :=
  graphs.map (fun g =>
    { image := g.image, coords := g.coords, symbols := g.symbols,
      edges := g.edges, key := g.key })

/-- `graph_copy[gi].symbols[ai] := v` (both indices produced in range by
`find_relevant_groups`). -/
def setSym (gs : List MolGraph) (gi ai : Nat) (v : String) : List MolGraph :=
  match gs.get? gi with
  | some g => gs.set gi { g with symbols := g.symbols.set ai v }
  | none => gs

/-- Lines 224-227, inner loop for the graph at index `gi`: for every located
`(symbol, atom index)`, overwrite the copied symbol with `mappings[symbol]`
when the symbol is a key of `mappings`. -/
def substGraphLocs (mappings : List (String × String)) (gi : Nat)
    (locs : List (String × Nat)) (gs : List MolGraph) : List MolGraph :=
  locs.foldl
    (fun gs al =>
      match mappings.lookup al.1 with
      | some v => setSym gs gi al.2 v
      | none => gs)
    gs

/-- Lines 224-227, outer loop: `relevant_locs` is a dict keyed by the
consecutive graph indices, iterated here with an explicit counter. -/
def substSymbolsGo (mappings : List (String × String)) :
    List (List (String × Nat)) → Nat → List MolGraph → List MolGraph
  | [], _, gs => gs
  | locs :: rest, gi, gs => substSymbolsGo mappings rest (gi + 1) (substGraphLocs mappings gi locs gs)

/-- Lines 224-227: for every located `(symbol, atom index)` of every graph,
overwrite the copied symbol with `mappings[symbol]` when the symbol is a key
of `mappings`. -/
def substSymbols (graphs : List MolGraph) (relevant_locs : List (List (String × Nat)))
    (mappings : List (String × String)) : List MolGraph :=
  substSymbolsGo mappings relevant_locs 0 graphs

/-- `append_copy` (lines 229-235): `'[Mol]'` dict entities are shallow-copied,
everything else is appended as-is; both are the identity on values.  (A list
reaching `append_copy` directly would raise in the source; that needs doubly
wrapped condition lists, which only a third expansion pass could produce.) -/
def append_copy (e : Ent) : Ent := e

/-- Lines 237-246: copy one entity list, descending one level into list
entries. -/
def copyEntList (es : List Ent) : List Ent :=
  es.map (fun e =>
    match e with
    | Ent.lst l => Ent.lst (l.map append_copy)
    | Ent.dict d => append_copy (Ent.dict d))

/-- Lines 237-246: the reaction copy, key by key. -/
def reactionCopy (r : Reaction) : Reaction :=
  { reactants := copyEntList r.reactants,
    conditions := copyEntList r.conditions,
    products := copyEntList r.products }

/-- Lines 250-251: `reaction_copy[key][i]['smiles'] = smiles`.  The keys carried
by graphs from `get_atoms_and_bonds` always address an in-range `'[Mol]'` dict
entry; other addresses (which would raise in the source) leave the reaction
unchanged. -/
def setSmilesAt (r : Reaction) (k : RKey) (i : Nat) (v : String) : Reaction :=
  match (r.getK k).get? i with
  | some (Ent.dict d) => r.setK k ((r.getK k).set i (Ent.dict { d with smiles := some v }))
  | _ => r

/-- `get_replaced_reaction` (utils.py lines 212-252). -/
def get_replaced_reaction (scribe : Scribe) (orig : Reaction) (graphs : List MolGraph)
    (relevant_locs : List (List (String × Nat))) (mappings : List (String × String)) :
    Reaction :=
  let graph_copy := substSymbols (copyGraphs graphs) relevant_locs mappings
  let reaction_copy := reactionCopy orig
  graph_copy.foldl
    (fun rc g => setSmilesAt rc g.key.1 g.key.2 (scribe.convert_graph_to_output g g.image))
    reaction_copy

/-! ## `process_tables` (utils.py lines 122-165) -/

/-- The per-row column scan (lines 137-152): fold over `zip(columns, row)`
accumulating the row's r-group dict, the extended condition list (seeded with
a copy of the original conditions, line 138) and the `replaced` flag. -/
def scanRow (origConds : List Ent) (columns : List Col) (row : List Cell) :
    List (String × String) × List Ent × Bool :=
  (columns.zip row).foldl
    (fun st ce =>
      if ce.1.tag ≠ "alkyl group" then
        (st.1,
         st.2.1 ++ [Ent.dict { category := "[Table]", text := ce.2.text,
                               tag := ce.1.tag, header := ce.1.text }],
         st.2.2)
      else
        match rGroupMatch ce.2.text with
        | some grp => (dictInsert st.1 ce.1.text grp, st.2.1, true)
        | none => st)
    ([], origConds, false)

/-- The row loop of `process_tables` (lines 135-162): every row runs
`get_replaced_reaction`; rows whose scan set `replaced` append a new instance,
the others contribute their extended condition list to
`conditions_to_extend`. -/
def rowLoop (scribe : Scribe) (orig : Reaction) (graphs : List MolGraph)
    (relevant_locs : List (List (String × Nat))) (columns : List Col)
    (rows : List (List Cell)) : List Reaction × List (List Ent) :=
  rows.foldl
    (fun acc row =>
      let scanned := scanRow orig.conditions columns row
      let reaction := get_replaced_reaction scribe orig graphs relevant_locs scanned.1
      if scanned.2.2 then
        (acc.1 ++ [{ reactants := reaction.reactants, conditions := scanned.2.1,
                     products := reaction.products }],
         acc.2)
      else
        (acc.1, acc.2 ++ [scanned.2.1]))
    ([], [])

/-- The per-figure body of `process_tables` (lines 124-164): set the page,
and when table content is present and at least one reaction exists, run the
row loop on the first reaction (a warning is printed when there are several),
append the emitted instances, and unconditionally replace the first reaction's
condition list by `[original conditions] ++ conditions_to_extend`
(lines 163-164). -/
def processPair (scribe : Scribe) (fig : Fig) (res : Res) : Res :=
  let res := { res with page := some fig.page }
  match fig.tableContent with
  | none => res
  | some content =>
      match res.reactions with
      | [] => res
      | orig :: rest =>
          let graphs := get_atoms_and_bonds scribe fig.figImage orig
          let relevant_locs := find_relevant_groups graphs content.columns
          let looped := rowLoop scribe orig graphs relevant_locs content.columns content.rows
          let orig' := { orig with
            conditions := Ent.lst orig.conditions :: looped.2.map Ent.lst }
          { res with reactions := orig' :: rest ++ looped.1 }

/-- `process_tables` (utils.py lines 122-165): `zip(figures, results)`
truncates to the shorter list; results beyond it are returned unchanged. -/
def process_tables (scribe : Scribe) (figures : List Fig) (results : List Res) :
    List Res :=
  (figures.zip results).map (fun p => processPair scribe p.1 p.2) ++
    results.drop figures.length

/-! ## Coreference records and `clean_corefs` (utils.py lines 311-332)

Exceptions (`IndexError` from indexing an empty list, `KeyError` from a
missing dict key) are modelled explicitly in an `Except` monad, since the
error-handling claims are about them. -/

inductive PyErr where
  | indexError | keyError
deriving DecidableEq, Repr

/-- A molecule bounding-box record of a coreference result; only its `smiles`
key is read by this cluster (presence tested on the first record,
utils.py line 318, then read unconditionally on all records, line 319). -/
structure MBox where
  smiles : Option String := none
deriving DecidableEq, Repr

/-- An identifier bounding-box record; only its `text` key is read
(utils.py line 323). -/
structure IBox where
  text : Option String := none
deriving DecidableEq, Repr

/-- The value found under `idt_bboxes`: line 321 tests
`type(res['idt_bboxes']) is not list`. -/
inductive IdtField where
  | notList : IdtField
  | list : List IBox → IdtField

/-- A per-figure coreference record as consumed by `clean_corefs`; `none`
fields model absent dict keys.  `bboxes` is only passed through, so its value
is opaque. -/
structure CorefRec where
  mol_bboxes : Option (List MBox) := none
  idt_bboxes : Option IdtField := none
  bboxes : Option Nat := none

/-- Result triple of a successful `clean_corefs` call:
`(mol_bboxes_text, coref_smiles, res['bboxes'])`. -/
abbrev CleanOut := List (MBox × String) × List (String × String) × Nat

/-- `clean_corefs` (utils.py lines 311-332). -/
def clean_corefs (d : List CorefRec) (idx : Nat) : Except PyErr (Option CleanOut) :=
  match d.get? idx with
  | none => pure none
  | some res =>
      match res.mol_bboxes with
      | none => pure none
      | some mbs =>
          (match mbs with
           | [] => Except.error PyErr.indexError
           | b0 :: _ =>
               if b0.smiles.isSome then
                 mbs.mapM (fun b =>
                   match b.smiles with
                   | some s => pure (b, s)
                   | none => Except.error PyErr.keyError)
               else pure []) >>= fun mol_bboxes_text =>
          match res.idt_bboxes with
          | none => pure none
          | some IdtField.notList => pure none
          | some (IdtField.list ibs) =>
              (ibs.mapM (fun b =>
                match b.text with
                | some t => pure t
                | none => Except.error PyErr.keyError)) >>= fun idt_texts =>
              match res.bboxes with
              | none => Except.error PyErr.keyError
              | some bb => pure (some (mol_bboxes_text, coref_assignments idt_texts, bb))

/-! ## `backout` (utils.py lines 496-547) -/

/-- A reactant/product entry of a reaction as read by `backout`: a dict whose
`smiles` key may be absent (`none`), present but `None` (`some none`), or a
string. -/
structure PBox where
  smiles : Option (Option String) := none
deriving DecidableEq, Repr

/-- A reaction instance as read by `backout`: only `reactants` and `products`
are accessed; `conditions` (absent on the instances `backout` emits) is
carried as an opaque payload. -/
structure Rxn where
  reactants : List PBox := []
  conditions : Option (List String) := none
  products : List PBox := []
deriving DecidableEq, Repr

/-- A per-figure result record as read by `backout`: only its `reactions`
list. -/
structure ResB where
  reactions : List Rxn := []
deriving DecidableEq, Repr

/-- The external cheminformatics service: structure parsing
(`Chem.MolFromSmiles`, `None` on failure) and substructure testing
(`a.HasSubstructMatch(b)` = "`a` contains `b` as a substructure"). -/
structure ChemO (μ : Type) where
  MolFromSmiles : String → Option μ
  HasSubstructMatch : μ → μ → Bool

/-- Python `c in s` for a one-character needle `c` (the only containment
tests `backout` performs are for `"*"` and `"R"`). -/
def strHasChar (s : String) (c : Char) : Bool := s.data.contains c

instance {ε α : Type} [DecidableEq ε] [DecidableEq α] : DecidableEq (Except ε α) := fun x y =>
  match x, y with
  | Except.error a, Except.error b =>
      if h : a = b then isTrue (by rw [h])
      else isFalse (by intro hc; cases hc; exact h rfl)
  | Except.ok a, Except.ok b =>
      if h : a = b then isTrue (by rw [h])
      else isFalse (by intro hc; cases hc; exact h rfl)
  | Except.error _, Except.ok _ => isFalse (by intro hc; cases hc)
  | Except.ok _, Except.error _ => isFalse (by intro hc; cases hc)

/-- `rxn['products'][0]` followed by the `'smiles' in ….keys()` test:
`IndexError` on an empty product list; otherwise the (possibly absent,
possibly `None`) smiles entry. -/
def prodSmiles0 (rxn : Rxn) : Except PyErr (Option (Option String)) :=
  match rxn.products with
  | [] => Except.error PyErr.indexError
  | p :: _ => pure p.smiles

/-- The body of the loop at lines 505-509. -/
def phase1Step (acc : List Rxn) (rxn : Rxn) : Except PyErr (List Rxn) := do
  match ← prodSmiles0 rxn with
  | some (some s) =>
      if !strHasChar s '*' && !strHasChar s 'R' then pure (acc ++ [rxn]) else pure acc
  | _ => pure acc

/-- Lines 505-509: keep the reactions whose first product has a smiles entry
that is not `None` and contains neither `*` nor `R`. -/
def backoutPhase1 (res : ResB) : Except PyErr (List Rxn) :=
  res.reactions.foldlM phase1Step []

/-- Line 520 compares the group string `v` against the bounding-box dict bound
to `text` by the tuple unpacking of line 519 (`mol_bboxes_text` holds
`(bbox, bbox['smiles'])` pairs, so `text` is the dict itself).  A Python
`str == dict` comparison is always `False`. -/
def pyEq_str_dict (_ : String) (_ : MBox) : Bool := false

/-- Lines 517-521: the structure→label map `coref_smiles_to_graphs`. -/
def corefSmilesToGraphs (coref_smiles : List (String × String))
    (mol_bboxes_text : List (MBox × String)) : List (String × String) :=
  coref_smiles.foldl
    (fun d kv =>
      mol_bboxes_text.foldl
        (fun d ts => if pyEq_str_dict kv.2 ts.1 then dictInsert d ts.2 kv.1 else d)
        d)
    []

/-- Lines 540-545: the emitted instance: reactants relabeled through
`coref_smiles_to_graphs` (a relabeled entry is a fresh dict holding only the
label), products shared with the ambiguous reaction, no conditions key. -/
def mkNewRxn (rxn : Rxn) (cmap : List (String × String)) : Rxn :=
  { reactants := rxn.reactants.map (fun r =>
      match r.smiles with
      | some (some s) =>
          match cmap.lookup s with
          | some lab => { smiles := some (some lab) }
          | none => r
      | _ => r),
    conditions := none,
    products := rxn.products }

/-- `prod_smiles.replace('*', 'C')` (single-character replacement, hence a
character-wise map). -/
def starToC (s : String) : String :=
  String.mk (s.data.map (fun c => if c = '*' then 'C' else c))

/-- Lines 528-546: scan every reaction of every result (template order, then
instance order) for wildcard-free-product candidates; for each candidate whose
parse succeeds and for which `prod_mol.HasSubstructMatch(other_prod_mol)`
holds (the ambiguous product's `*`→`C` skeleton contains the candidate), emit
one relabeled instance.  There is no early exit. -/
def backoutInnerStep {μ : Type} (chem : ChemO μ) (cmap : List (String × String))
    (rxn : Rxn) (prod_smiles : String) (acc : List Rxn) (other_rxn : Rxn) :
    Except PyErr (List Rxn) := do
  match ← prodSmiles0 other_rxn with
  | some (some os) =>
      if !strHasChar os '*' then
        match chem.MolFromSmiles (starToC prod_smiles), chem.MolFromSmiles os with
        | some pm, some om =>
            if chem.HasSubstructMatch pm om then pure (acc ++ [mkNewRxn rxn cmap])
            else pure acc
        | _, _ => pure acc
      else pure acc
  | _ => pure acc

def backoutInner {μ : Type} (chem : ChemO μ) (results : List ResB)
    (cmap : List (String × String)) (rxn : Rxn) (prod_smiles : String) :
    Except PyErr (List Rxn) :=
  results.foldlM
    (fun acc other_res =>
      other_res.reactions.foldlM (backoutInnerStep chem cmap rxn prod_smiles) acc)
    []

/-- The body of the inner loop at lines 522-546, for one reaction of the
record being scanned. -/
def phase2RxnStep {μ : Type} (chem : ChemO μ) (results : List ResB)
    (cmap : List (String × String)) (emitted : List Rxn) (rxn : Rxn) :
    Except PyErr (List Rxn) := do
  match ← prodSmiles0 rxn with
  | some (some s) =>
      if strHasChar s '*' then do
        let more ← backoutInner chem results cmap rxn s
        pure (emitted ++ more)
      else pure emitted
  | _ => pure emitted

/-- The body of the outer loop at lines 512-546, for one `(index, record)`
pair. -/
def phase2Step {μ : Type} (chem : ChemO μ) (results : List ResB)
    (coref_results : List CorefRec) (emitted : List Rxn) (ir : Nat × ResB) :
    Except PyErr (List Rxn) := do
  match ← clean_corefs coref_results ir.1 with
  | none => pure emitted
  | some co =>
      ir.2.reactions.foldlM
        (phase2RxnStep chem results (corefSmilesToGraphs co.2.1 co.1)) emitted

/-- Lines 512-546: the reconciliation pass, returning every emitted instance
in emission order.  (All of them are appended to the `new_res` dict left over
from the last iteration of the first loop — the variable is never rebound in
this loop — which `backout` below accounts for.) -/
def backoutPhase2 {μ : Type} (chem : ChemO μ) (results : List ResB)
    (coref_results : List CorefRec) : Except PyErr (List Rxn) :=
  (results.enum).foldlM (phase2Step chem results coref_results) []

/-- Append the phase-2 emissions to the reactions of the last result record
(the stale `new_res` of line 546). -/
def appendToLast : List ResB → List Rxn → List ResB
  | [], _ => []
  | [r], em => [{ reactions := r.reactions ++ em }]
  | r :: rs, em => r :: appendToLast rs em

/-- `backout` (utils.py lines 496-547): build one fresh result record per
input record holding its wildcard-free reactions (lines 500-509), then append
every reconciled instance to the last record's list (lines 512-546). -/
def backout {μ : Type} (chem : ChemO μ) (results : List ResB)
    (coref_results : List CorefRec) : Except PyErr (List ResB) := do
  let finals ← results.mapM (fun res => do
    pure (ResB.mk (← backoutPhase1 res)))
  let emitted ← backoutPhase2 chem results coref_results
  pure (appendToLast finals emitted)

/-! ## Reference-level model of the graph copy in `get_replaced_reaction`

To state that the *input* graphs are not mutated (a claim about object
identity, invisible to a value-level translation), the three array fields of a
graph are modelled as references into a store, exactly mirroring which list
objects lines 213-227 allocate and which they write.  The outer `edges` list
is shallow-copied in the source (the rows stay shared), but nothing in the
function writes to a row, so copying it by value is observationally equal. -/

structure SymStore where
  syms : List (List String)
  coords : List (List Coord)
  edges : List (List (List Nat))

/-- A graph whose `symbols` / `coords` / `edges` lists are references into a
`SymStore`. -/
structure HGraph where
  image : Image := 0
  symRef : Nat := 0
  coordRef : Nat := 0
  edgeRef : Nat := 0
  key : RKey × Nat := (RKey.reactants, 0)

/-- Lines 215-223 for one graph: allocate fresh cells (at the end of the
store) holding copies of the three arrays, and return the copy record
referring to them. -/
def allocCopy (st : SymStore) (g : HGraph) : SymStore × HGraph :=
  ({ syms := st.syms ++ [st.syms.getD g.symRef []],
     coords := st.coords ++ [st.coords.getD g.coordRef []],
     edges := st.edges ++ [st.edges.getD g.edgeRef []] },
   { image := g.image, symRef := st.syms.length, coordRef := st.coords.length,
     edgeRef := st.edges.length, key := g.key })

/-- Lines 213-223: build `graph_copy`: each iteration allocates the copy of
one graph from the current store and appends it to the copy list. -/
def copyPhase (st : SymStore) : List HGraph → SymStore × List HGraph
  | [] => (st, [])
  | g :: gs =>
      let stepped := allocCopy st g
      let rest := copyPhase stepped.1 gs
      (rest.1, stepped.2 :: rest.2)

/-- One symbol write `store[ref][ai] := v`. -/
def writeSym (st : SymStore) (ref ai : Nat) (v : String) : SymStore :=
  { st with syms := st.syms.set ref ((st.syms.getD ref []).set ai v) }

/-- Lines 225-227 on the reference level, inner loop for the copy at index
`gi`. -/
def substPhaseLocs (copies : List HGraph) (mappings : List (String × String))
    (gi : Nat) (locs : List (String × Nat)) (st : SymStore) : SymStore :=
  locs.foldl
    (fun st al =>
      match mappings.lookup al.1 with
      | some v =>
          match copies.get? gi with
          | some g => writeSym st g.symRef al.2 v
          | none => st
      | none => st)
    st

/-- Lines 224-227 on the reference level: relabel located atoms inside the
copies; `relevant_locs` is a dict keyed by the consecutive graph indices,
iterated with an explicit counter.  (`graph_copy[graph_idx]` with an
out-of-range index would raise in the source; `relevant_locs` always comes
from `find_relevant_groups` over the same graphs.) -/
def substPhaseGo (copies : List HGraph) (mappings : List (String × String)) :
    List (List (String × Nat)) → Nat → SymStore → SymStore
  | [], _, st => st
  | locs :: rest, gi, st =>
      substPhaseGo copies mappings rest (gi + 1) (substPhaseLocs copies mappings gi locs st)

def substPhase (st : SymStore) (copies : List HGraph)
    (relevant_locs : List (List (String × Nat))) (mappings : List (String × String)) :
    SymStore :=
  substPhaseGo copies mappings relevant_locs 0 st

/-- The graph-copying and relabeling prefix of `get_replaced_reaction`
(utils.py lines 213-227) on the reference level; the rest of the function
(lines 228-251) reads graphs but writes no graph array. -/
def get_replaced_reaction_heap (st : SymStore) (gs : List HGraph)
    (relevant_locs : List (List (String × Nat))) (mappings : List (String × String)) :
    SymStore × List HGraph :=
  let copied := copyPhase st gs
  (substPhase copied.1 copied.2 relevant_locs mappings, copied.2)

/-! ## Concrete fixtures used to exercise the theorems on closed inputs -/

/-- A deterministic stand-in for the external recognizer: every call returns
one two-atom molecule with a single bond. -/
def scribeW : Scribe where
  predict_images := fun _ => [⟨[⟨0, 0, "C"⟩, ⟨1, 0, "O"⟩], [⟨(0, 1), "single"⟩]⟩]
  convert_graph_to_output := fun _ _ => "CO"
  crop := fun i _ => i

/-- A reaction holding one recognized molecule entity. -/
def reactionW : Reaction where
  products := [Ent.dict { category := "[Mol]" }]

/-- A one-cell store: one symbol array `["C", "R"]`, one coordinate array, one
bond matrix. -/
def stW : SymStore where
  syms := [["C", "R"]]
  coords := [[(0, 0), (1, 0)]]
  edges := [[[0, 1], [1, 0]]]

/-- One graph whose three arrays are the cells of `stW`. -/
def gsW : List HGraph := [{ image := 0, symRef := 0, coordRef := 0, edgeRef := 0,
                            key := (RKey.reactants, 0) }]

/-- Located positions: symbol `R` at atom index 1 of graph 0. -/
def rlW : List (List (String × Nat)) := [[("R", 1)]]

/-- The row mapping `R ↦ Me`. -/
def mpW : List (String × String) := [("R", "Me")]

/-- The same graph as a value-level record, for the substitution-frame part. -/
def graphsW : List MolGraph := [{ image := 0, coords := [(0, 0), (1, 0)],
                                  symbols := ["C", "R"], edges := [[0, 1], [1, 0]],
                                  key := (RKey.reactants, 0) }]

/-- A figure carrying table content with no rows. -/
def figW : Fig := { page := 7, tableContent := some { columns := [], rows := [] },
                    figImage := 0 }

/-- A result record with one reaction holding one condition entity. -/
def resW : Res := { reactions := [{ conditions := [Ent.dict {}] }] }

/-! ## Specification predicates and fixtures for the backout cluster -/

/-- The keep-condition of `backout`'s first loop (lines 505-509): first
product has a smiles entry that is a string containing neither `*` nor `R`. -/
def keepConcrete (rxn : Rxn) : Bool :=
  match rxn.products with
  | [] => false
  | p :: _ =>
      match p.smiles with
      | some (some s) => !strHasChar s '*' && !strHasChar s 'R'
      | _ => false

/-- The candidate test of `backout`'s reconciliation loop (lines 530-537):
the candidate's first product has a non-`None` smiles entry without `*`, both
structures parse, and the ambiguous product's `*`→`C` skeleton *contains* the
candidate (`prod_mol.HasSubstructMatch(other_prod_mol)`). -/
def isMatchB {μ : Type} (chem : ChemO μ) (ps : String) (other : Rxn) : Bool :=
  match other.products with
  | [] => false
  | p :: _ =>
      match p.smiles with
      | some (some os) =>
          !strHasChar os '*' &&
            (match chem.MolFromSmiles (starToC ps), chem.MolFromSmiles os with
             | some pm, some om => chem.HasSubstructMatch pm om
             | _, _ => false)
      | _ => false

/-- All candidates that match an ambiguous product smiles `ps`, in template
order then instance order. -/
def matchingCandidates {μ : Type} (chem : ChemO μ) (results : List ResB) (ps : String) :
    List Rxn :=
  results.flatMap (fun r => r.reactions.filter (isMatchB chem ps))

/-- Well-formedness of a coreference record: every field `clean_corefs` reads
unconditionally is populated (nonempty `mol_bboxes` with `smiles` on every
box, `text` on every identifier box, a `bboxes` entry). -/
def wfRec (r : CorefRec) : Prop :=
  (match r.mol_bboxes with
   | some mbs => mbs ≠ [] ∧ ∀ b ∈ mbs, b.smiles.isSome
   | none => True) ∧
  (match r.idt_bboxes with
   | some (IdtField.list ibs) => ∀ b ∈ ibs, b.text.isSome
   | _ => True) ∧
  r.bboxes.isSome

/-- Well-formedness of a result record for `backout`: every instance has a
nonempty product list (line 506/523/530 index `products[0]`). -/
def wfRes (res : ResB) : Prop := ∀ rxn ∈ res.reactions, rxn.products ≠ []

/-- A parse-everything, match-nothing service. -/
def chemTriv : ChemO String where
  MolFromSmiles := fun s => some s
  HasSubstructMatch := fun _ _ => false

/-- A service under which exactly the skeleton `"C"` (as receiver) contains
everything; in particular `HasSubstructMatch` is asymmetric. -/
def chemSkel : ChemO String where
  MolFromSmiles := fun s => some s
  HasSubstructMatch := fun a _ => a = "C"

/-- An ambiguous instance: wildcard product, one reactant, some conditions. -/
def ambRxn : Rxn := { reactants := [{ smiles := some (some "[1]") }],
                      conditions := some ["heat"],
                      products := [{ smiles := some (some "*") }] }

/-- Concrete instances with wildcard-free products. -/
def cRxnN : Rxn := { products := [{ smiles := some (some "N") }] }

def cRxnO : Rxn := { products := [{ smiles := some (some "O") }] }

/-- A usable coreference record (all fields populated). -/
def corefRecW : CorefRec := { mol_bboxes := some [{ smiles := some "C" }],
                              idt_bboxes := some (IdtField.list []),
                              bboxes := some 0 }

/-- A record whose `mol_bboxes` key is present but empty. -/
def corefRecBad : CorefRec := { mol_bboxes := some [],
                                idt_bboxes := some (IdtField.list []),
                                bboxes := some 0 }

/-! # Theorems -/

/-- Fold induction helper: an invariant preserved by every step holds of the
fold. -/
theorem foldl_induction {α β : Type} (f : β → α → β) (P : β → Prop) :
    ∀ (l : List α) (b : β), P b → (∀ b a, a ∈ l → P b → P (f b a)) → P (l.foldl f b)
  | [], _, hb, _ => hb
  | a :: l, b, hb, hf =>
      foldl_induction f P l (f b a) (hf b a (List.Mem.head _) hb)
        (fun b' a' ha' => hf b' a' (List.Mem.tail _ ha'))

theorem getD_set_ne {α : Type} (l : List α) (i j : Nat) (x d : α) (h : i ≠ j) :
    (l.set i x).getD j d = l.getD j d := by
  simp [List.getD_eq_getElem?_getD, List.getElem?_set_ne h]

theorem getD_set_self {α : Type} (l : List α) (i : Nat) (x d : α) (h : i < l.length) :
    (l.set i x).getD i d = x := by
  simp [List.getD_eq_getElem?_getD, List.getElem?_set_self h]

theorem getD_of_length_le {α : Type} (l : List α) (i : Nat) (d : α) (h : l.length ≤ i) :
    l.getD i d = d := by
  simp [List.getD_eq_getElem?_getD, List.getElem?_eq_none h]

theorem btLoop_length (g : Nat) : ∀ i s, (btLoop g i s).length = 2 ^ g - 1 := by
  induction g with
  | zero => intro i s; simp [btLoop]
  | succ g ih =>
      intro i s
      have h1 : 1 ≤ 2 ^ g := Nat.one_le_two_pow
      simp only [btLoop, List.length_append, List.length_cons, ih]
      rw [Nat.pow_succ]
      omega

theorem btLoop_mem (g : Nat) : ∀ i s (l : List Nat),
    l ∈ btLoop g i s ↔
      ∃ t, l = s ++ t ∧ t ≠ [] ∧ t.Pairwise (· < ·) ∧ ∀ x ∈ t, i ≤ x ∧ x < i + g := by
  induction g with
  | zero =>
      intro i s l
      simp only [btLoop, List.not_mem_nil, false_iff]
      rintro ⟨t, _, hne, _, hb⟩
      cases t with
      | nil => exact hne rfl
      | cons a t => have := hb a (by simp); omega
  | succ g ih =>
      intro i s l
      constructor
      · intro hl
        simp only [btLoop, List.mem_append, List.mem_cons] at hl
        rcases hl with (rfl | hA) | hB
        · exact ⟨[i], rfl, by simp, by simp, by intro x hx; simp at hx; omega⟩
        · obtain ⟨t', rfl, hne, hp, hb⟩ := (ih (i + 1) (s ++ [i]) _).mp hA
          refine ⟨i :: t', by simp, by simp, ?_, ?_⟩
          · exact List.pairwise_cons.mpr ⟨fun y hy => by have := hb y hy; omega, hp⟩
          · intro x hx
            rcases List.mem_cons.mp hx with rfl | hx
            · omega
            · have := hb x hx; omega
        · obtain ⟨t, rfl, hne, hp, hb⟩ := (ih (i + 1) s _).mp hB
          exact ⟨t, rfl, hne, hp, fun x hx => by have := hb x hx; omega⟩
      · rintro ⟨t, rfl, hne, hp, hb⟩
        cases t with
        | nil => exact absurd rfl hne
        | cons a t' =>
            simp only [btLoop, List.mem_append, List.mem_cons]
            have ha := hb a (by simp)
            have hp' := List.pairwise_cons.mp hp
            by_cases hai : a = i
            · subst hai
              cases t' with
              | nil => left; left; rfl
              | cons b t'' =>
                  left; right
                  refine (ih (a + 1) (s ++ [a]) _).mpr ⟨b :: t'', by simp, by simp, hp'.2, ?_⟩
                  intro x hx
                  have h1 := hp'.1 x hx
                  have h2 := hb x (List.mem_cons_of_mem a hx)
                  omega
            · right
              refine (ih (i + 1) s _).mpr ⟨a :: t', rfl, by simp, hp, ?_⟩
              intro x hx
              rcases List.mem_cons.mp hx with rfl | hx
              · omega
              · have h1 := hp'.1 x hx
                have h2 := hb x (List.mem_cons_of_mem a hx)
                omega

theorem btLoop_nodup (g : Nat) : ∀ i s, (btLoop g i s).Nodup := by
  induction g with
  | zero => intro i s; simp [btLoop]
  | succ g ih =>
      intro i s
      simp only [btLoop]
      rw [List.nodup_append]
      refine ⟨List.nodup_cons.mpr ⟨?_, ih _ _⟩, ih _ _, ?_⟩
      · intro hmem
        obtain ⟨t', heq, hne, _, _⟩ := (btLoop_mem g (i + 1) (s ++ [i]) _).mp hmem
        have h0 : (s ++ [i]) ++ ([] : List Nat) = (s ++ [i]) ++ t' := by simpa using heq
        exact hne (List.append_cancel_left h0).symm
      · intro x hx hx'
        obtain ⟨t, heq, hne, _, hb⟩ := (btLoop_mem g (i + 1) s _).mp hx'
        rcases List.mem_cons.mp hx with rfl | hxA
        · -- s ++ [i] = s ++ t forces t = [i], but t's entries are ≥ i + 1
          have ht : [i] = t := List.append_cancel_left heq
          subst ht
          have := hb i (by simp)
          omega
        · obtain ⟨t', heq', _, _, _⟩ := (btLoop_mem g (i + 1) (s ++ [i]) _).mp hxA
          subst heq
          rw [List.append_assoc] at heq'
          have ht : t = [i] ++ t' := List.append_cancel_left heq'
          subst ht
          have := hb i (by simp)
          omega

/-- C10: `generate_subsets n` returns exactly `2 ^ n` pairwise-distinct lists;
each returned list is a strictly increasing sequence of numbers below `n`;
every strictly increasing sequence of numbers below `n` (i.e. every subset of
`{0, …, n-1}`, written in increasing order) occurs in the output, hence exactly
once; and the empty list is the first element of the output. -/
theorem generate_subsets_spec (n : Nat) :
    (generate_subsets n).length = 2 ^ n ∧
    (generate_subsets n).Nodup ∧
    (∀ l : List Nat, l ∈ generate_subsets n ↔
      (l.Pairwise (· < ·) ∧ ∀ x ∈ l, x < n)) ∧
    (generate_subsets n).head? = some [] := by
  refine ⟨?_, ?_, ?_, rfl⟩
  · have h1 : 1 ≤ 2 ^ n := Nat.one_le_two_pow
    simp only [generate_subsets, List.length_cons, btLoop_length]
    omega
  · refine List.nodup_cons.mpr ⟨?_, btLoop_nodup n 0 []⟩
    intro hmem
    obtain ⟨t, heq, hne, _, _⟩ := (btLoop_mem n 0 [] _).mp hmem
    simp at heq
    exact hne heq
  · intro l
    simp only [generate_subsets, List.mem_cons, btLoop_mem n 0 []]
    constructor
    · rintro (rfl | ⟨t, rfl, _, hp, hb⟩)
      · simp
      · refine ⟨by simpa using hp, ?_⟩
        intro x hx
        have := (hb x (by simpa using hx)).2
        omega
    · rintro ⟨hp, hb⟩
      cases l with
      | nil => left; rfl
      | cons a t =>
          right
          exact ⟨a :: t, by simp, by simp, hp, fun x hx => ⟨Nat.zero_le x, by
            simpa using hb x hx⟩⟩

/-! ## C6: the coreference assignment parser on Scenario B -/

/-- C6 counterexample: on the identifier texts `"3a, R = Cl"` and
`"3b, R = Br"` the extraction of `clean_corefs` does *not* return
`{"3a": "Cl", "3b": "Br"}`. -/
theorem coref_assignments_scenarioB_cex :
    coref_assignments ["3a, R = Cl", "3b, R = Br"] ≠ [("3a", "Cl"), ("3b", "Br")] := by
  decide

/-- C6 amended: on the identifier texts `"3a, R = Cl"` and `"3b, R = Br"` the
extraction returns `{"3a": "R", "3b": "R"}`: the pattern captures the token
following the label's separator (here the substituent symbol `R`), because a
match cannot cross the `" = "` that precedes the value. -/
theorem coref_assignments_scenarioB :
    coref_assignments ["3a, R = Cl", "3b, R = Br"] = [("3a", "R"), ("3b", "R")] := by
  decide


/-! ## C9: adjacency matrices built by `get_atoms_and_bonds` -/

theorem get2_setEdge (m : List (List Nat)) (i j v a b : Nat) (hi : i < m.length)
    (hj : j < (m.getD i []).length) :
    get2 (setEdge m i j v) a b = if a = i ∧ b = j then v else get2 m a b := by
  unfold get2 setEdge
  by_cases hai : a = i
  · subst hai
    rw [getD_set_self _ _ _ _ hi]
    by_cases hbj : b = j
    · subst hbj
      rw [getD_set_self _ _ _ _ hj]
      simp
    · rw [getD_set_ne _ _ _ _ _ (fun h => hbj h.symm)]
      simp [hbj]
  · rw [getD_set_ne _ _ _ _ _ (fun h => hai h.symm)]
    simp [hai]

/-- The matrix is `n × n`. -/
def SquareInv (n : Nat) (m : List (List Nat)) : Prop :=
  m.length = n ∧ ∀ k row, m.get? k = some row → row.length = n

theorem squareInv_row_len {n : Nat} {m : List (List Nat)} (h : SquareInv n m)
    (i : Nat) (hi : i < n) : (m.getD i []).length = n := by
  obtain ⟨hlen, hrow⟩ := h
  cases hg : m.get? i with
  | none =>
      rw [List.get?_eq_getElem?] at hg
      have := List.getElem?_eq_none_iff.mp hg
      omega
  | some row =>
      rw [List.getD_eq_getElem?_getD, ← List.get?_eq_getElem?, hg]
      exact hrow i row hg

theorem squareInv_setEdge {n : Nat} {m : List (List Nat)} (h : SquareInv n m)
    {i : Nat} (hi : i < n) (j v : Nat) :
    SquareInv n (setEdge m i j v) := by
  obtain ⟨hlen, hrow⟩ := h
  refine ⟨by unfold setEdge; rw [List.length_set]; exact hlen, ?_⟩
  intro k row hk
  unfold setEdge at hk
  rw [List.get?_eq_getElem?] at hk
  by_cases hki : i = k
  · subst hki
    rw [List.getElem?_set_self (by omega)] at hk
    cases hk
    rw [List.length_set]
    exact squareInv_row_len ⟨hlen, hrow⟩ i hi
  · rw [List.getElem?_set_ne hki] at hk
    exact hrow k row (by rw [List.get?_eq_getElem?]; exact hk)

theorem get2_setEdge2 {n : Nat} {m : List (List Nat)} (h : SquareInv n m)
    (i j v : Nat) (hi : i < n) (hj : j < n) (a b : Nat) :
    get2 (setEdge (setEdge m i j v) j i v) a b =
      if a = j ∧ b = i then v else if a = i ∧ b = j then v else get2 m a b := by
  have h1 : SquareInv n (setEdge m i j v) := squareInv_setEdge h hi j v
  rw [get2_setEdge (setEdge m i j v) j i v a b (by rw [h1.1]; exact hj)
        (by rw [squareInv_row_len h1 j hj]; exact hi),
      get2_setEdge m i j v a b (by rw [h.1]; exact hi)
        (by rw [squareInv_row_len h i hi]; exact hj)]

theorem edgeInv_step {n : Nat} {m : List (List Nat)}
    (h : SquareInv n m) (hs : ∀ a b, get2 m a b = get2 m b a)
    (i j v : Nat) (hi : i < n) (hj : j < n) :
    SquareInv n (setEdge (setEdge m i j v) j i v) ∧
      ∀ a b, get2 (setEdge (setEdge m i j v) j i v) a b =
             get2 (setEdge (setEdge m i j v) j i v) b a := by
  refine ⟨squareInv_setEdge (squareInv_setEdge h hi j v) hj i v, ?_⟩
  intro a b
  rw [get2_setEdge2 h i j v hi hj a b, get2_setEdge2 h i j v hi hj b a]
  by_cases h1 : a = j ∧ b = i
  · by_cases h2 : b = j ∧ a = i
    · simp [h1, h2]
    · have h3 : b = i ∧ a = j := ⟨h1.2, h1.1⟩
      simp [h1, h2, h3]
  · by_cases h2 : a = i ∧ b = j
    · have h3 : b = j ∧ a = i := ⟨h2.2, h2.1⟩
      simp [h1, h2, h3]
    · have h3 : ¬(b = j ∧ a = i) := fun hh => h2 ⟨hh.2, hh.1⟩
      have h4 : ¬(b = i ∧ a = j) := fun hh => h1 ⟨hh.2, hh.1⟩
      simp only [if_neg h1, if_neg h2, if_neg h3, if_neg h4]
      exact hs a b

theorem get2_replicate_zero (n a b : Nat) :
    get2 (List.replicate n (List.replicate n 0)) a b = 0 := by
  unfold get2
  by_cases ha : a < n <;> by_cases hb : b < n <;>
    simp [List.getD_eq_getElem?_getD, List.getElem?_replicate, ha, hb]

theorem fillEdges_spec (n : Nat) (bonds : List PredBond)
    (hB : ∀ b ∈ bonds, b.endpoint_atoms.1 < n ∧ b.endpoint_atoms.2 < n) :
    SquareInv n (fillEdges n bonds) ∧
      ∀ i j, get2 (fillEdges n bonds) i j = get2 (fillEdges n bonds) j i := by
  unfold fillEdges
  refine foldl_induction _
    (fun m => SquareInv n m ∧ ∀ a b, get2 m a b = get2 m b a) bonds _
    ⟨⟨?_, ?_⟩, ?_⟩ ?_
  · exact List.length_replicate n _
  · intro k row hk
    rw [List.get?_eq_getElem?, List.getElem?_replicate] at hk
    by_cases hkn : k < n
    · rw [if_pos hkn] at hk
      cases hk
      exact List.length_replicate n _
    · rw [if_neg hkn] at hk
      cases hk
  · intro a b
    rw [get2_replicate_zero, get2_replicate_zero]
  · intro m bond hmem hP
    exact edgeInv_step hP.1 hP.2 _ _ _ (hB bond hmem).1 (hB bond hmem).2

theorem molSkeletons_empty_arrays (scribe : Scribe) (image : Image) (r : Reaction) :
    ∀ g ∈ molSkeletons scribe image r, g.symbols = [] ∧ g.edges = [] := by
  intro g hg
  unfold molSkeletons at hg
  rw [List.mem_flatMap] at hg
  obtain ⟨kv, _, hg⟩ := hg
  rw [List.mem_filterMap] at hg
  obtain ⟨ie, _, hg⟩ := hg
  split at hg
  · split at hg
    · cases hg
      exact ⟨rfl, rfl⟩
    · cases hg
  · cases hg

/-- C9: every molecular graph returned by `get_atoms_and_bonds` (under the
adapter's input condition that the recognizer's bond endpoints index its
atoms) has a bond adjacency matrix that is square — as many rows as atoms,
every row as long as the atom list — and symmetric: `bond(i,j) = bond(j,i)`
for all indices. -/
theorem get_atoms_and_bonds_edges_spec (scribe : Scribe) (image : Image) (r : Reaction)
    (hB : ∀ mol ∈ scribe.predict_images ((molSkeletons scribe image r).map (·.image)),
          ∀ b ∈ mol.bonds,
            b.endpoint_atoms.1 < mol.atoms.length ∧ b.endpoint_atoms.2 < mol.atoms.length) :
    ∀ g ∈ get_atoms_and_bonds scribe image r,
      g.edges.length = g.symbols.length ∧
      (∀ k row, g.edges.get? k = some row → row.length = g.symbols.length) ∧
      (∀ i j, get2 g.edges i j = get2 g.edges j i) := by
  intro g hg
  unfold get_atoms_and_bonds at hg
  rw [List.mem_append] at hg
  rcases hg with hg | hg
  · rw [List.mem_map] at hg
    obtain ⟨p, hp, rfl⟩ := hg
    have hmem := List.of_mem_zip hp
    have hbnd := hB p.1 hmem.1
    have hfe := fillEdges_spec p.1.atoms.length p.1.bonds hbnd
    refine ⟨?_, ?_, hfe.2⟩
    · show (fillEdges p.1.atoms.length p.1.bonds).length = _
      rw [hfe.1.1]
      simp [fillGraph]
    · intro k row hk
      have := hfe.1.2 k row hk
      rw [this]
      simp [fillGraph]
  · have hg' : g ∈ molSkeletons scribe image r :=
      List.drop_subset _ _ hg
    obtain ⟨hs, he⟩ := molSkeletons_empty_arrays scribe image r g hg'
    rw [hs, he]
    refine ⟨rfl, ?_, ?_⟩
    · intro k row hk
      cases hk
    · intro i j
      rfl

theorem get_atoms_and_bonds_edges_spec_witness :
    (∀ mol ∈ scribeW.predict_images ((molSkeletons scribeW 0 reactionW).map (·.image)),
        ∀ b ∈ mol.bonds,
          b.endpoint_atoms.1 < mol.atoms.length ∧ b.endpoint_atoms.2 < mol.atoms.length) ∧
    (∀ g ∈ get_atoms_and_bonds scribeW 0 reactionW,
      g.edges.length = g.symbols.length ∧
      (∀ k row, g.edges.get? k = some row → row.length = g.symbols.length) ∧
      (∀ i j, get2 g.edges i j = get2 g.edges j i)) :=
  ⟨by decide, get_atoms_and_bonds_edges_spec scribeW 0 reactionW (by decide)⟩

/-! ## C7: `get_replaced_reaction` never mutates the input graphs, and
unlocated atoms keep their labels -/

theorem get?_append_prefix {α : Type} (l xs : List α) (r : Nat) (hr : r < l.length) :
    (l ++ xs).get? r = l.get? r := by
  rw [List.get?_eq_getElem?, List.get?_eq_getElem?, List.getElem?_append_left hr]

theorem copyPhase_ext (gs : List HGraph) : ∀ (st : SymStore),
    (∃ xs, (copyPhase st gs).1.syms = st.syms ++ xs) ∧
    (∃ ys, (copyPhase st gs).1.coords = st.coords ++ ys) ∧
    (∃ zs, (copyPhase st gs).1.edges = st.edges ++ zs) ∧
    (∀ c ∈ (copyPhase st gs).2, st.syms.length ≤ c.symRef) := by
  induction gs with
  | nil =>
      intro st
      refine ⟨⟨[], by simp [copyPhase]⟩, ⟨[], by simp [copyPhase]⟩,
              ⟨[], by simp [copyPhase]⟩, ?_⟩
      intro c hc
      simp [copyPhase] at hc
  | cons g gs ih =>
      intro st
      obtain ⟨⟨xs, hxs⟩, ⟨ys, hys⟩, ⟨zs, hzs⟩, href⟩ := ih (allocCopy st g).1
      simp only [copyPhase]
      refine ⟨⟨st.syms.getD g.symRef [] :: xs, ?_⟩,
              ⟨st.coords.getD g.coordRef [] :: ys, ?_⟩,
              ⟨st.edges.getD g.edgeRef [] :: zs, ?_⟩, ?_⟩
      · rw [hxs]
        show (st.syms ++ [_]) ++ xs = _
        rw [List.append_assoc]
        rfl
      · rw [hys]
        show (st.coords ++ [_]) ++ ys = _
        rw [List.append_assoc]
        rfl
      · rw [hzs]
        show (st.edges ++ [_]) ++ zs = _
        rw [List.append_assoc]
        rfl
      · intro c hc
        rcases List.mem_cons.mp hc with rfl | hc
        · show st.syms.length ≤ st.syms.length
          exact Nat.le_refl _
        · have h1 := href c hc
          have hlen : (allocCopy st g).1.syms.length = st.syms.length + 1 := by
            show (st.syms ++ [_]).length = _
            simp
        
          omega

theorem substPhaseLocs_frame (c : List HGraph) (mp : List (String × String))
    (gi : Nat) (locs : List (String × Nat)) (st : SymStore) (L : Nat)
    (hC : ∀ g ∈ c, L ≤ g.symRef) (r : Nat) (hr : r < L) :
    (substPhaseLocs c mp gi locs st).syms.get? r = st.syms.get? r ∧
    (substPhaseLocs c mp gi locs st).coords = st.coords ∧
    (substPhaseLocs c mp gi locs st).edges = st.edges := by
  unfold substPhaseLocs
  refine foldl_induction _
    (fun b => b.syms.get? r = st.syms.get? r ∧ b.coords = st.coords ∧ b.edges = st.edges)
    locs st ⟨rfl, rfl, rfl⟩ ?_
  intro b al _ hP
  cases hL : mp.lookup al.1 with
  | none => exact hP
  | some v =>
      cases hg : c.get? gi with
      | none => exact hP
      | some g =>
          refine ⟨?_, hP.2.1, hP.2.2⟩
          show (b.syms.set g.symRef _).get? r = _
          have hge : L ≤ g.symRef := hC g (List.get?_mem hg)
          rw [List.get?_eq_getElem?, List.getElem?_set_ne (by omega), ← List.get?_eq_getElem?]
          exact hP.1

theorem substPhaseGo_frame (c : List HGraph) (mp : List (String × String)) (L : Nat)
    (hC : ∀ g ∈ c, L ≤ g.symRef) (r : Nat) (hr : r < L) :
    ∀ (rl : List (List (String × Nat))) (gi : Nat) (st : SymStore),
    (substPhaseGo c mp rl gi st).syms.get? r = st.syms.get? r ∧
    (substPhaseGo c mp rl gi st).coords = st.coords ∧
    (substPhaseGo c mp rl gi st).edges = st.edges := by
  intro rl
  induction rl with
  | nil => intro gi st; exact ⟨rfl, rfl, rfl⟩
  | cons locs rest ih =>
      intro gi st
      have h1 := substPhaseLocs_frame c mp gi locs st L hC r hr
      have h2 := ih (gi + 1) (substPhaseLocs c mp gi locs st)
      simp only [substPhaseGo]
      exact ⟨h2.1.trans h1.1, h2.2.1.trans h1.2.1, h2.2.2.trans h1.2.2⟩

theorem substGraphLocs_other (mp : List (String × String)) (gi : Nat)
    (locs : List (String × Nat)) (gs : List MolGraph) (d : MolGraph) (k : Nat)
    (hk : k ≠ gi) : (substGraphLocs mp gi locs gs).getD k d = gs.getD k d := by
  unfold substGraphLocs
  refine foldl_induction _ (fun b => b.getD k d = gs.getD k d) locs gs rfl ?_
  intro b al _ hP
  cases mp.lookup al.1 with
  | none => exact hP
  | some v =>
      show (setSym b gi al.2 v).getD k d = _
      unfold setSym
      cases b.get? gi with
      | none => exact hP
      | some g =>
          rw [List.getD_eq_getElem?_getD, List.getElem?_set_ne (fun h => hk h.symm),
              ← List.getD_eq_getElem?_getD]
          exact hP

theorem substGraphLocs_frame (mp : List (String × String)) (gi : Nat)
    (locs : List (String × Nat)) (gs : List MolGraph) (d : MolGraph) (j : Nat)
    (h : ∀ p ∈ locs, p.2 = j → mp.lookup p.1 = none) :
    ((substGraphLocs mp gi locs gs).getD gi d).symbols.get? j =
      ((gs.getD gi d).symbols.get? j) := by
  unfold substGraphLocs
  refine foldl_induction _
    (fun b => (b.getD gi d).symbols.get? j = ((gs.getD gi d).symbols.get? j))
    locs gs rfl ?_
  intro b al hal hP
  cases hL : mp.lookup al.1 with
  | none => exact hP
  | some v =>
      have haj : al.2 ≠ j := by
        intro hcon
        rw [h al hal hcon] at hL
        cases hL
      show ((setSym b gi al.2 v).getD gi d).symbols.get? j = _
      unfold setSym
      cases hg : b.get? gi with
      | none => exact hP
      | some g =>
          have hlt : gi < b.length := by
            rw [List.get?_eq_getElem?] at hg
            exact (List.getElem?_eq_some_iff.mp hg).1
          rw [getD_set_self _ _ _ _ hlt]
          show (g.symbols.set al.2 v).get? j = _
          rw [List.get?_eq_getElem?, List.getElem?_set_ne haj, ← List.get?_eq_getElem?]
          have hgd : b.getD gi d = g := by
            rw [List.getD_eq_getElem?_getD, ← List.get?_eq_getElem?, hg]
            rfl
          rw [← hgd]
          exact hP

theorem substSymbolsGo_frame (mp : List (String × String)) (j gi : Nat) (d : MolGraph) :
    ∀ (rl : List (List (String × Nat))) (base : Nat) (gs : List MolGraph),
    (∀ k ls, rl.get? k = some ls → base + k = gi → ∀ p ∈ ls, p.2 = j → mp.lookup p.1 = none) →
    ((substSymbolsGo mp rl base gs).getD gi d).symbols.get? j =
      ((gs.getD gi d).symbols.get? j) := by
  intro rl
  induction rl with
  | nil => intro base gs _; rfl
  | cons locs rest ih =>
      intro base gs h
      simp only [substSymbolsGo]
      have hcond : ∀ k ls, rest.get? k = some ls → (base + 1) + k = gi →
          ∀ p ∈ ls, p.2 = j → mp.lookup p.1 = none := by
        intro k ls hk hsum
        exact h (k + 1) ls hk (by omega)
      rw [ih (base + 1) (substGraphLocs mp base locs gs) hcond]
      by_cases hbg : base = gi
      · subst hbg
        exact substGraphLocs_frame mp base locs gs d j (h 0 locs rfl rfl)
      · rw [substGraphLocs_other mp base locs gs d gi (fun hcon => hbg hcon.symm)]

theorem copyGraphs_eq (graphs : List MolGraph) : copyGraphs graphs = graphs := by
  unfold copyGraphs
  have hfun : (fun (g : MolGraph) =>
      ({ image := g.image, coords := g.coords, symbols := g.symbols,
         edges := g.edges, key := g.key } : MolGraph)) = fun g => g := rfl
  rw [hfun, List.map_id']

theorem substPhaseLocs_coords_edges (c : List HGraph) (mp : List (String × String))
    (gi : Nat) (locs : List (String × Nat)) (st : SymStore) :
    (substPhaseLocs c mp gi locs st).coords = st.coords ∧
    (substPhaseLocs c mp gi locs st).edges = st.edges := by
  unfold substPhaseLocs
  refine foldl_induction _ (fun b => b.coords = st.coords ∧ b.edges = st.edges)
    locs st ⟨rfl, rfl⟩ ?_
  intro b al _ hP
  cases mp.lookup al.1 with
  | none => exact hP
  | some v =>
      cases c.get? gi with
      | none => exact hP
      | some g => exact ⟨hP.1, hP.2⟩

theorem substPhaseGo_coords_edges (c : List HGraph) (mp : List (String × String)) :
    ∀ (rl : List (List (String × Nat))) (gi : Nat) (st : SymStore),
    (substPhaseGo c mp rl gi st).coords = st.coords ∧
    (substPhaseGo c mp rl gi st).edges = st.edges := by
  intro rl
  induction rl with
  | nil => intro gi st; exact ⟨rfl, rfl⟩
  | cons locs rest ih =>
      intro gi st
      have h1 := substPhaseLocs_coords_edges c mp gi locs st
      have h2 := ih (gi + 1) (substPhaseLocs c mp gi locs st)
      simp only [substPhaseGo]
      exact ⟨h2.1.trans h1.1, h2.2.trans h1.2⟩

/-- C7: the graph-copying and relabeling performed by `get_replaced_reaction`
never mutates an input graph: every symbol array, coordinate array and bond
matrix that existed in the store before the call reads back unchanged
afterwards (all writes go to the freshly allocated copies).  Moreover, in the
produced copies, every atom index that is not listed in `relevant_locs` for
its graph — and every listed atom whose symbol is not a key of `mappings` —
keeps its original label. -/
theorem get_replaced_reaction_frame (st : SymStore) (gs : List HGraph)
    (rl : List (List (String × Nat))) (mp : List (String × String)) :
    (∀ r, r < st.syms.length →
       (get_replaced_reaction_heap st gs rl mp).1.syms.get? r = st.syms.get? r) ∧
    (∀ r, r < st.coords.length →
       (get_replaced_reaction_heap st gs rl mp).1.coords.get? r = st.coords.get? r) ∧
    (∀ r, r < st.edges.length →
       (get_replaced_reaction_heap st gs rl mp).1.edges.get? r = st.edges.get? r) ∧
    (∀ (graphs : List MolGraph) (gi j : Nat) (d : MolGraph),
       (∀ p ∈ rl.getD gi [], p.2 = j → mp.lookup p.1 = none) →
       ((substSymbols (copyGraphs graphs) rl mp).getD gi d).symbols.get? j =
         ((graphs.getD gi d).symbols.get? j)) := by
  obtain ⟨⟨xs, hxs⟩, ⟨ys, hys⟩, ⟨zs, hzs⟩, href⟩ := copyPhase_ext gs st
  refine ⟨?_, ?_, ?_, ?_⟩
  · intro r hr
    show (substPhase (copyPhase st gs).1 (copyPhase st gs).2 rl mp).syms.get? r = _
    unfold substPhase
    rw [(substPhaseGo_frame (copyPhase st gs).2 mp st.syms.length href r hr rl 0
          (copyPhase st gs).1).1,
        hxs, get?_append_prefix _ _ _ hr]
  · intro r hr
    show (substPhase (copyPhase st gs).1 (copyPhase st gs).2 rl mp).coords.get? r = _
    unfold substPhase
    rw [(substPhaseGo_coords_edges (copyPhase st gs).2 mp rl 0 (copyPhase st gs).1).1,
        hys, get?_append_prefix _ _ _ hr]
  · intro r hr
    show (substPhase (copyPhase st gs).1 (copyPhase st gs).2 rl mp).edges.get? r = _
    unfold substPhase
    rw [(substPhaseGo_coords_edges (copyPhase st gs).2 mp rl 0 (copyPhase st gs).1).2,
        hzs, get?_append_prefix _ _ _ hr]
  · intro graphs gi j d h
    unfold substSymbols
    rw [copyGraphs_eq graphs]
    refine substSymbolsGo_frame mp j gi d rl 0 graphs ?_
    intro k ls hk hsum
    have hls : ls = rl.getD gi [] := by
      rw [List.getD_eq_getElem?_getD, ← List.get?_eq_getElem?, ← hsum]
      rw [show (0 : Nat) + k = k by omega, hk]
      rfl
    rw [hls] at *
    exact h

theorem get_replaced_reaction_frame_witness :
    ((get_replaced_reaction_heap stW gsW rlW mpW).1.syms.get? 0 = stW.syms.get? 0) ∧
    ((get_replaced_reaction_heap stW gsW rlW mpW).1.coords.get? 0 = stW.coords.get? 0) ∧
    ((get_replaced_reaction_heap stW gsW rlW mpW).1.edges.get? 0 = stW.edges.get? 0) ∧
    (((substSymbols (copyGraphs graphsW) rlW mpW).getD 0
        ⟨0, [], [], [], (RKey.reactants, 0)⟩).symbols.get? 0 =
      ((graphsW.getD 0 ⟨0, [], [], [], (RKey.reactants, 0)⟩).symbols.get? 0)) :=
  ⟨(get_replaced_reaction_frame stW gsW rlW mpW).1 0 (by decide),
   (get_replaced_reaction_frame stW gsW rlW mpW).2.1 0 (by decide),
   (get_replaced_reaction_frame stW gsW rlW mpW).2.2.1 0 (by decide),
   (get_replaced_reaction_frame stW gsW rlW mpW).2.2.2 graphsW 0 0 _ (by decide)⟩

/-! ## C4 and C5: the unconditional condition-list wrap of `process_tables` -/

theorem process_tables_singleton (scribe : Scribe) (fig : Fig) (res : Res) :
    process_tables scribe [fig] [res] = [processPair scribe fig res] := by
  simp [process_tables]

/-- C4 amended: whenever table content is present and the result holds at
least one reaction, `process_tables` *always* replaces the first reaction's
condition list by a list whose head is the wrapped original condition list
(followed by the extended lists of the rows that yielded no substitution) —
whether or not any row yielded a substitution.  In particular a table with
zero rows does *not* leave the template unchanged: nothing is appended and no
other field moves, but the original instance's conditions become
`[original conditions]`. -/
theorem process_tables_wrap (scribe : Scribe) (fig : Fig) (res : Res)
    (content : TContent) (orig : Reaction) (rest : List Reaction)
    (hc : fig.tableContent = some content) (hr : res.reactions = orig :: rest) :
    (∃ r' c' rest',
       process_tables scribe [fig] [res] = [r'] ∧
       r'.page = some fig.page ∧
       r'.reactions = { orig with conditions := Ent.lst orig.conditions :: c' } ::
         rest ++ rest') ∧
    (content.rows = [] →
       process_tables scribe [fig] [res] =
         [{ res with
              page := some fig.page,
              reactions := { orig with conditions := [Ent.lst orig.conditions] } :: rest }]) := by
  rw [process_tables_singleton]
  constructor
  · refine ⟨processPair scribe fig res,
      (rowLoop scribe orig (get_atoms_and_bonds scribe fig.figImage orig)
        (find_relevant_groups (get_atoms_and_bonds scribe fig.figImage orig) content.columns)
        content.columns content.rows).2.map Ent.lst,
      (rowLoop scribe orig (get_atoms_and_bonds scribe fig.figImage orig)
        (find_relevant_groups (get_atoms_and_bonds scribe fig.figImage orig) content.columns)
        content.columns content.rows).1,
      rfl, ?_, ?_⟩
    · simp [processPair, hc, hr]
    · simp [processPair, hc, hr]
  · intro hrows
    simp [processPair, hc, hr, hrows, rowLoop]

theorem process_tables_wrap_witness :
    figW.tableContent = some { columns := [], rows := [] } ∧
    resW.reactions = ({ conditions := [Ent.dict {}] } : Reaction) :: [] ∧
    ((∃ r' c' rest',
       process_tables scribeW [figW] [resW] = [r'] ∧
       r'.page = some figW.page ∧
       r'.reactions = (⟨[], Ent.lst [Ent.dict {}] :: c', []⟩ : Reaction) :: [] ++ rest') ∧
     (({ columns := [], rows := [] } : TContent).rows = [] →
       process_tables scribeW [figW] [resW] =
         [{ resW with
              page := some figW.page,
              reactions := [(⟨[], [Ent.lst [Ent.dict {}]], []⟩ : Reaction)] }])) :=
  ⟨rfl, rfl,
   process_tables_wrap scribeW figW resW { columns := [], rows := [] }
     { conditions := [Ent.dict {}] } [] rfl rfl⟩

/-- C4 counterexample: on a zero-row table the claim says the template is left
entirely unchanged; the code wraps the original instance's condition list, so
the returned template differs from the input. -/
theorem process_tables_zero_rows_cex :
    process_tables scribeW [figW] [resW] =
      [⟨some 7, [⟨[], [Ent.lst [Ent.dict {}]], []⟩]⟩] ∧
    ([⟨[], [Ent.lst [Ent.dict {}]], []⟩] : List Reaction) ≠ resW.reactions := by
  refine ⟨rfl, ?_⟩
  intro h
  simp [resW] at h

/-- Shape of one `process_tables` pass over a result with table content and at
least one reaction: page set, first reaction's conditions wrapped, emitted
instances appended at the end. -/
theorem processPair_shape (scribe : Scribe) (fig : Fig) (res : Res)
    (content : TContent) (orig : Reaction) (rest : List Reaction)
    (hc : fig.tableContent = some content) (hr : res.reactions = orig :: rest) :
    ∃ c' rest', processPair scribe fig res =
      { res with
          page := some fig.page,
          reactions := { orig with conditions := Ent.lst orig.conditions :: c' } ::
            rest ++ rest' } :=
  ⟨(rowLoop scribe orig (get_atoms_and_bonds scribe fig.figImage orig)
      (find_relevant_groups (get_atoms_and_bonds scribe fig.figImage orig) content.columns)
      content.columns content.rows).2.map Ent.lst,
   (rowLoop scribe orig (get_atoms_and_bonds scribe fig.figImage orig)
      (find_relevant_groups (get_atoms_and_bonds scribe fig.figImage orig) content.columns)
      content.columns content.rows).1,
   by simp [processPair, hc, hr]⟩

/-- A condition list is never equal to its own wrap followed by anything. -/
theorem conds_ne_wrap (c X : List Ent) : c ≠ Ent.lst c :: X := by
  intro h
  have hs := congrArg sizeOf h
  simp at hs
  omega

/-- C5 amended: `process_tables` is not idempotent.  Whenever table content is
present and the result holds at least one reaction, a second pass over the
output of the first re-wraps the first instance's condition list (and appends
the substituted-row instances again), so the state after two passes always
differs from the state after one. -/
theorem process_tables_not_idempotent (scribe : Scribe) (fig : Fig) (res : Res)
    (content : TContent) (orig : Reaction) (rest : List Reaction)
    (hc : fig.tableContent = some content) (hr : res.reactions = orig :: rest) :
    process_tables scribe [fig] (process_tables scribe [fig] [res]) ≠
      process_tables scribe [fig] [res] := by
  obtain ⟨c1, r1, h1⟩ := processPair_shape scribe fig res content orig rest hc hr
  have hr1 : (processPair scribe fig res).reactions =
      { orig with conditions := Ent.lst orig.conditions :: c1 } :: (rest ++ r1) := by
    rw [h1]
    rfl
  obtain ⟨c2, r2, h2⟩ := processPair_shape scribe fig (processPair scribe fig res) content
    ({ orig with conditions := Ent.lst orig.conditions :: c1 }) (rest ++ r1) hc hr1
  intro h
  rw [process_tables_singleton, process_tables_singleton] at h
  have hPP : processPair scribe fig (processPair scribe fig res) =
      processPair scribe fig res :=
    ((List.cons.injEq _ _ _ _).mp h).1
  rw [h2] at hPP
  have hre := congrArg Res.reactions hPP
  rw [hr1] at hre
  have horig := ((List.cons.injEq _ _ _ _).mp hre).1
  have hconds := congrArg Reaction.conditions horig
  exact conds_ne_wrap (Ent.lst orig.conditions :: c1) c2 hconds.symm

theorem process_tables_not_idempotent_witness :
    figW.tableContent = some { columns := [], rows := [] } ∧
    resW.reactions = ({ conditions := [Ent.dict {}] } : Reaction) :: [] ∧
    process_tables scribeW [figW] (process_tables scribeW [figW] [resW]) ≠
      process_tables scribeW [figW] [resW] :=
  ⟨rfl, rfl,
   process_tables_not_idempotent scribeW figW resW { columns := [], rows := [] }
     { conditions := [Ent.dict {}] } [] rfl rfl⟩

/-- C5 counterexample: running the table expansion twice on a
zero-row-table/one-reaction pair changes the state again — the second run
wraps the already wrapped condition list once more. -/
theorem process_tables_idempotence_cex :
    process_tables scribeW [figW] (process_tables scribeW [figW] [resW]) =
      [⟨some 7, [⟨[], [Ent.lst [Ent.lst [Ent.dict {}]]], []⟩]⟩] ∧
    process_tables scribeW [figW] [resW] =
      [⟨some 7, [⟨[], [Ent.lst [Ent.dict {}]], []⟩]⟩] ∧
    process_tables scribeW [figW] (process_tables scribeW [figW] [resW]) ≠
      process_tables scribeW [figW] [resW] := by
  refine ⟨rfl, rfl, ?_⟩
  intro h
  have h2 : ([⟨some 7, [⟨[], [Ent.lst [Ent.lst [Ent.dict {}]]], []⟩]⟩] : List Res) =
      [⟨some 7, [⟨[], [Ent.lst [Ent.dict {}]], []⟩]⟩] := h
  simp at h2

/-! ## C1, C2, C3, C8: counterexamples on the backout reconciler -/

/-- C1 counterexample: a template whose only instance has a wildcard product
enters `backout` with one instance and comes out with none — the ambiguous
instance is not carried into the returned results, so the instance count
drops to zero. -/
theorem backout_monotonicity_cex :
    backout chemTriv [ResB.mk [ambRxn]] ([] : List CorefRec) =
      Except.ok [ResB.mk []] ∧
    (ResB.mk [ambRxn]).reactions.length = 1 := by
  refine ⟨by decide, rfl⟩

/-- C2 counterexample: with one matching concrete sibling `cRxnN`, the emitted
instance keeps the ambiguous reaction's own wildcard products (not `cRxnN`'s
concrete ones) and carries no conditions entry, although the ambiguous
instance had conditions. -/
theorem backout_emitted_cex :
    backout chemSkel [ResB.mk [ambRxn], ResB.mk [cRxnN]] [corefRecW] =
      Except.ok [ResB.mk [],
        ResB.mk [cRxnN, { reactants := ambRxn.reactants, conditions := none,
                          products := ambRxn.products }]] ∧
    ambRxn.products ≠ cRxnN.products ∧
    ambRxn.conditions ≠ (none : Option (List String)) := by
  refine ⟨by decide, by decide, by decide⟩

/-- C3 counterexample: under a service for which no candidate contains the
skeleton (`HasSubstructMatch cand skel = false` for both candidates) but the
skeleton contains every candidate, `backout` emits one instance per candidate
— two instances for one ambiguous reaction, so the claimed
contains-direction and the claimed first-match cutoff both fail. -/
theorem backout_first_match_cex :
    backout chemSkel [ResB.mk [ambRxn], ResB.mk [cRxnN, cRxnO]] [corefRecW] =
      Except.ok [ResB.mk [],
        ResB.mk [cRxnN, cRxnO,
          { reactants := ambRxn.reactants, conditions := none, products := ambRxn.products },
          { reactants := ambRxn.reactants, conditions := none, products := ambRxn.products }]] ∧
    chemSkel.HasSubstructMatch "N" "C" = false ∧
    chemSkel.HasSubstructMatch "O" "C" = false := by
  refine ⟨by decide, by decide, by decide⟩

/-- C8 counterexample: a coreference record whose `mol_bboxes` key holds an
empty list makes `backout` raise `IndexError` (via `clean_corefs` line 318)
instead of returning normally. -/
theorem backout_indexerror_cex :
    backout chemTriv [ResB.mk [cRxnN]] [corefRecBad] = Except.error PyErr.indexError := by
  decide

/-! ## C1, C2, C3, C8: the backout reconciler in general -/

/-- A fold over `Except` whose steps either raise or append according to a
predicate computes `acc ++ matches`. -/
theorem foldlM_filter {α : Type} (step : List Rxn → α → Except PyErr (List Rxn))
    (p : α → Bool) (out : α → Rxn) :
    ∀ (rs : List α),
      (∀ acc a, a ∈ rs → (∃ e, step acc a = Except.error e) ∨
        step acc a = Except.ok (if p a then acc ++ [out a] else acc)) →
    ∀ acc l, rs.foldlM step acc = Except.ok l → l = acc ++ (rs.filter p).map out := by
  intro rs
  induction rs with
  | nil =>
      intro _ acc l h
      rw [List.foldlM_nil] at h
      cases h
      simp
  | cons a rs ih =>
      intro hstep acc l h
      rw [List.foldlM_cons] at h
      rcases hstep acc a (List.Mem.head _) with ⟨e, he⟩ | hok
      · rw [he] at h
        cases h
      · rw [hok] at h
        have h' : rs.foldlM step (if p a then acc ++ [out a] else acc) = Except.ok l := h
        have := ih (fun acc' a' ha' => hstep acc' a' (List.Mem.tail _ ha')) _ l h'
        rw [this]
        by_cases hp : p a
        · simp [hp, List.filter_cons, List.append_assoc]
        · simp [hp, List.filter_cons]

/-- A fold over `Except` whose steps all succeed succeeds. -/
theorem foldlM_ok {α β : Type} (step : β → α → Except PyErr β) :
    ∀ (rs : List α), (∀ acc a, a ∈ rs → ∃ b, step acc a = Except.ok b) →
    ∀ acc, ∃ l, rs.foldlM step acc = Except.ok l := by
  intro rs
  induction rs with
  | nil => intro _ acc; exact ⟨acc, rfl⟩
  | cons a rs ih =>
      intro hstep acc
      obtain ⟨b, hb⟩ := hstep acc a (List.Mem.head _)
      obtain ⟨l, hl⟩ := ih (fun acc' a' ha' => hstep acc' a' (List.Mem.tail _ ha')) b
      refine ⟨l, ?_⟩
      rw [List.foldlM_cons, hb]
      exact hl

/-- A `mapM` over `Except` whose elements all succeed succeeds. -/
theorem mapM_ok {α β : Type} (f : α → Except PyErr β) :
    ∀ (l : List α), (∀ a ∈ l, ∃ b, f a = Except.ok b) →
    ∃ out, l.mapM f = Except.ok out := by
  intro l
  induction l with
  | nil => exact fun _ => ⟨[], rfl⟩
  | cons a l ih =>
      intro h
      obtain ⟨b, hb⟩ := h a (List.Mem.head _)
      obtain ⟨out, hout⟩ := ih (fun a' ha' => h a' (List.Mem.tail _ ha'))
      refine ⟨b :: out, ?_⟩
      rw [List.mapM_cons, hb]
      show l.mapM f >>= (fun xs => pure (b :: xs)) = Except.ok (b :: out)
      rw [hout]
      rfl

theorem phase1Step_shape (acc : List Rxn) (rxn : Rxn) :
    (rxn.products = [] ∧ phase1Step acc rxn = Except.error PyErr.indexError) ∨
    (rxn.products ≠ [] ∧
      phase1Step acc rxn = Except.ok (if keepConcrete rxn then acc ++ [rxn] else acc)) := by
  unfold phase1Step prodSmiles0 keepConcrete
  cases rxn.products with
  | nil => exact Or.inl ⟨rfl, rfl⟩
  | cons p rest =>
      refine Or.inr ⟨by simp, ?_⟩
      dsimp only [Bind.bind, Except.bind, Pure.pure, Except.pure]
      cases p.smiles with
      | none => rfl
      | some o =>
          cases o with
          | none => rfl
          | some s =>
              dsimp only
              cases (!strHasChar s '*' && !strHasChar s 'R') with
              | true => rfl
              | false => rfl

theorem backoutInnerStep_shape {μ : Type} (chem : ChemO μ) (cmap : List (String × String))
    (rxn : Rxn) (ps : String) (acc : List Rxn) (other : Rxn) :
    (other.products = [] ∧
      backoutInnerStep chem cmap rxn ps acc other = Except.error PyErr.indexError) ∨
    (other.products ≠ [] ∧
      backoutInnerStep chem cmap rxn ps acc other =
        Except.ok (if isMatchB chem ps other then acc ++ [mkNewRxn rxn cmap] else acc)) := by
  unfold backoutInnerStep prodSmiles0 isMatchB
  cases other.products with
  | nil => exact Or.inl ⟨rfl, rfl⟩
  | cons p rest =>
      refine Or.inr ⟨by simp, ?_⟩
      dsimp only [Bind.bind, Except.bind, Pure.pure, Except.pure]
      cases p.smiles with
      | none => rfl
      | some o =>
          cases o with
          | none => rfl
          | some os =>
              dsimp only
              cases strHasChar os '*' with
              | true => rfl
              | false =>
                  cases chem.MolFromSmiles (starToC ps) with
                  | none => rfl
                  | some pm =>
                      cases chem.MolFromSmiles os with
                      | none => rfl
                      | some om =>
                          dsimp only
                          cases chem.HasSubstructMatch pm om with
                          | true => rfl
                          | false => rfl

theorem backoutPhase1_eq (res : ResB) (l : List Rxn)
    (h : backoutPhase1 res = Except.ok l) :
    l = res.reactions.filter keepConcrete := by
  have hres := foldlM_filter phase1Step keepConcrete (fun rxn => rxn) res.reactions
    (fun acc a _ => by
      rcases phase1Step_shape acc a with ⟨_, he⟩ | ⟨_, hok⟩
      · exact Or.inl ⟨PyErr.indexError, he⟩
      · exact Or.inr hok)
    [] l h
  simpa using hres

theorem backoutInner_fold_spec {μ : Type} (chem : ChemO μ) (cmap : List (String × String))
    (rxn : Rxn) (ps : String) :
    ∀ (ress : List ResB) (acc l : List Rxn),
      ress.foldlM (fun acc other_res =>
          other_res.reactions.foldlM (backoutInnerStep chem cmap rxn ps) acc) acc
        = Except.ok l →
      l = acc ++ (ress.flatMap (fun r => r.reactions.filter (isMatchB chem ps))).map
            (fun _ => mkNewRxn rxn cmap) := by
  intro ress
  induction ress with
  | nil =>
      intro acc l h
      rw [List.foldlM_nil] at h
      cases h
      simp
  | cons r ress ih =>
      intro acc l h
      rw [List.foldlM_cons] at h
      cases hf : r.reactions.foldlM (backoutInnerStep chem cmap rxn ps) acc with
      | error e => rw [hf] at h; cases h
      | ok acc' =>
          rw [hf] at h
          have h' : ress.foldlM (fun acc other_res =>
              other_res.reactions.foldlM (backoutInnerStep chem cmap rxn ps) acc) acc'
              = Except.ok l := h
          have hacc' : acc' = acc ++ (r.reactions.filter (isMatchB chem ps)).map
              (fun _ => mkNewRxn rxn cmap) :=
            foldlM_filter (backoutInnerStep chem cmap rxn ps) (isMatchB chem ps)
              (fun _ => mkNewRxn rxn cmap) r.reactions
              (fun acc a _ => by
                rcases backoutInnerStep_shape chem cmap rxn ps acc a with ⟨_, he⟩ | ⟨_, hok⟩
                · exact Or.inl ⟨PyErr.indexError, he⟩
                · exact Or.inr hok)
              acc acc' hf
          rw [ih acc' l h', hacc']
          simp [List.append_assoc]

/-- C3 amended: each reconciliation scan emits exactly one instance for
*every* matching candidate, taken in template order then instance order —
there is no first-match cutoff — and a candidate matches iff its product is
wildcard-free, both structures parse, and the *skeleton contains the
candidate* (`prod_mol.HasSubstructMatch(other_prod_mol)`, the reverse of the
claimed direction; see `isMatchB`). -/
theorem backoutInner_matches {μ : Type} (chem : ChemO μ) (results : List ResB)
    (cmap : List (String × String)) (rxn : Rxn) (ps : String) (l : List Rxn)
    (h : backoutInner chem results cmap rxn ps = Except.ok l) :
    l = (matchingCandidates chem results ps).map (fun _ => mkNewRxn rxn cmap) :=
  backoutInner_fold_spec chem cmap rxn ps results [] l h

theorem backoutInner_matches_witness :
    backoutInner chemSkel [ResB.mk [cRxnN, cRxnO]] [] ambRxn "*" =
      Except.ok [{ reactants := ambRxn.reactants, conditions := none,
                   products := ambRxn.products },
                 { reactants := ambRxn.reactants, conditions := none,
                   products := ambRxn.products }] ∧
    ([{ reactants := ambRxn.reactants, conditions := none, products := ambRxn.products },
      { reactants := ambRxn.reactants, conditions := none, products := ambRxn.products }]
        : List Rxn) =
      (matchingCandidates chemSkel [ResB.mk [cRxnN, cRxnO]] "*").map
        (fun _ => mkNewRxn ambRxn []) :=
  ⟨by decide, backoutInner_matches chemSkel [ResB.mk [cRxnN, cRxnO]] [] ambRxn "*" _
    (by decide)⟩

theorem corefSmilesToGraphs_empty (cs : List (String × String))
    (mbt : List (MBox × String)) : corefSmilesToGraphs cs mbt = [] := by
  unfold corefSmilesToGraphs
  have hinner : ∀ (v lab : String) (d : List (String × String)),
      mbt.foldl (fun d ts => if pyEq_str_dict v ts.1 then dictInsert d ts.2 lab else d) d
        = d := by
    intro v lab d
    induction mbt generalizing d with
    | nil => rfl
    | cons t ts ih => exact ih d
  induction cs with
  | nil => rfl
  | cons kv cs ih =>
      rw [List.foldl_cons, hinner kv.2 kv.1 []]
      exact ih

/-- C2 amended: the structure→label map built at lines 517-521 is *always*
empty (line 520 compares a string against a bounding-box record), so the
emitted instance of lines 540-545 carries the ambiguous reaction's reactants
unchanged, its own (wildcard) products — not the concrete candidate's — and
no conditions entry at all. -/
theorem backout_emitted_shape :
    (∀ (cs : List (String × String)) (mbt : List (MBox × String)),
       corefSmilesToGraphs cs mbt = []) ∧
    (∀ rxn : Rxn, mkNewRxn rxn [] =
       { reactants := rxn.reactants, conditions := none, products := rxn.products }) := by
  refine ⟨corefSmilesToGraphs_empty, ?_⟩
  intro rxn
  unfold mkNewRxn
  have hmap : ∀ l : List PBox, (l.map (fun r =>
      match r.smiles with
      | some (some s) =>
          match List.lookup s ([] : List (String × String)) with
          | some lab => ({ smiles := some (some lab) } : PBox)
          | none => r
      | _ => r)) = l := by
    intro l
    induction l with
    | nil => rfl
    | cons r t ih =>
        rw [List.map_cons, ih]
        cases hs : r.smiles with
        | none => rfl
        | some o =>
            cases o with
            | none => rfl
            | some s => rfl
  rw [hmap]

theorem backout_ok_decomp {μ : Type} (chem : ChemO μ) (results : List ResB)
    (corefs : List CorefRec) (finals : List ResB)
    (h : backout chem results corefs = Except.ok finals) :
    ∃ finals0 emitted,
      results.mapM (fun res => do pure (ResB.mk (← backoutPhase1 res))) =
        Except.ok finals0 ∧
      backoutPhase2 chem results corefs = Except.ok emitted ∧
      finals = appendToLast finals0 emitted := by
  unfold backout at h
  cases hm : results.mapM (fun res => do pure (ResB.mk (← backoutPhase1 res))) with
  | error e => rw [hm] at h; cases h
  | ok finals0 =>
      rw [hm] at h
      have h1 : (backoutPhase2 chem results corefs >>= fun emitted =>
          pure (appendToLast finals0 emitted)) = Except.ok finals := h
      cases hp : backoutPhase2 chem results corefs with
      | error e => rw [hp] at h1; cases h1
      | ok emitted =>
          rw [hp] at h1
          have h2 : Except.ok (appendToLast finals0 emitted) = Except.ok finals := h1
          cases h2
          exact ⟨finals0, emitted, rfl, rfl, rfl⟩

theorem phase1_mapM_eq :
    ∀ (results : List ResB) (finals0 : List ResB),
      results.mapM (fun res => do pure (ResB.mk (← backoutPhase1 res))) =
        Except.ok finals0 →
      finals0 = results.map (fun res => ResB.mk (res.reactions.filter keepConcrete)) := by
  intro results
  induction results with
  | nil =>
      intro finals0 h
      cases h
      rfl
  | cons res rs ih =>
      intro finals0 h
      rw [List.mapM_cons] at h
      cases h1 : backoutPhase1 res with
      | error e => rw [h1] at h; cases h
      | ok l =>
          rw [h1] at h
          have h2 : (rs.mapM (fun res => do pure (ResB.mk (← backoutPhase1 res))) >>=
              fun xs => pure (ResB.mk l :: xs)) = Except.ok finals0 := h
          cases hm : rs.mapM (fun res => do pure (ResB.mk (← backoutPhase1 res))) with
          | error e => rw [hm] at h2; cases h2
          | ok xs =>
              rw [hm] at h2
              have h3 : Except.ok (ResB.mk l :: xs) = Except.ok finals0 := h2
              cases h3
              rw [List.map_cons, backoutPhase1_eq res l h1, ih xs hm]

theorem appendToLast_length : ∀ (l : List ResB) (em : List Rxn),
    (appendToLast l em).length = l.length := by
  intro l
  induction l with
  | nil => intro em; rfl
  | cons r rs ih =>
      intro em
      cases rs with
      | nil => rfl
      | cons r2 rs' =>
          show (r :: appendToLast (r2 :: rs') em).length = _
          simp [ih em]

theorem appendToLast_getD : ∀ (l : List ResB) (em : List Rxn) (i : Nat), i < l.length →
    (appendToLast l em).getD i (ResB.mk []) =
      if i + 1 = l.length then ResB.mk ((l.getD i (ResB.mk [])).reactions ++ em)
      else l.getD i (ResB.mk []) := by
  intro l
  induction l with
  | nil => intro em i hi; cases hi
  | cons r rs ih =>
      intro em i hi
      cases rs with
      | nil =>
          have hi0 : i = 0 := by
            simp at hi
            omega
          subst hi0
          rfl
      | cons r2 rs' =>
          cases i with
          | zero =>
              have hne : ¬ (0 + 1 = (r :: r2 :: rs').length) := by
                simp
              rw [if_neg hne]
              rfl
          | succ i =>
              show (appendToLast (r2 :: rs') em).getD i (ResB.mk []) = _
              have hi' : i < (r2 :: rs').length := by
                rw [List.length_cons] at hi
                omega
              rw [ih em i hi']
              by_cases hlast : i + 1 = (r2 :: rs').length
              · rw [if_pos hlast, if_pos (by rw [List.length_cons]; omega)]
                rfl
              · rw [if_neg hlast, if_neg (by rw [List.length_cons]; omega)]
                rfl

/-- C1 amended: `backout` builds a *fresh* per-template result list: the
instances whose first product is a present, non-`None` structure string
containing neither `*` nor `R` are preserved, in order, as a prefix of the
returned template's list; every other (ambiguous) instance is dropped, so a
template may come out with fewer — even zero — instances.  Reconciled
instances are appended, and all of them go to the *last* template's list (the
loop at lines 512-546 appends to the `new_res` left over from the first
loop). -/
theorem backout_preserves_concrete {μ : Type} (chem : ChemO μ) (results : List ResB)
    (corefs : List CorefRec) (finals : List ResB)
    (h : backout chem results corefs = Except.ok finals) :
    finals.length = results.length ∧
    ∀ i, i < results.length → ∃ em,
      (finals.getD i (ResB.mk [])).reactions =
        ((results.getD i (ResB.mk [])).reactions.filter keepConcrete) ++ em ∧
      (i + 1 < results.length → em = []) := by
  obtain ⟨finals0, emitted, hm, _, rfl⟩ := backout_ok_decomp chem results corefs finals h
  have hf0 := phase1_mapM_eq results finals0 hm
  subst hf0
  constructor
  · rw [appendToLast_length, List.length_map]
  · intro i hi
    have hlen : i <
        (results.map (fun res => ResB.mk (res.reactions.filter keepConcrete))).length := by
      rw [List.length_map]
      exact hi
    rw [appendToLast_getD _ emitted i hlen]
    have hmap : (results.map (fun res => ResB.mk (res.reactions.filter keepConcrete))).getD i
        (ResB.mk []) = ResB.mk ((results.getD i (ResB.mk [])).reactions.filter keepConcrete) := by
      rw [List.getD_eq_getElem?_getD, List.getElem?_map, List.getD_eq_getElem?_getD]
      cases hx : results[i]? with
      | none => rfl
      | some r => rfl
    by_cases hlast : i + 1 =
        (results.map (fun res => ResB.mk (res.reactions.filter keepConcrete))).length
    · rw [if_pos hlast, hmap]
      refine ⟨emitted, rfl, ?_⟩
      intro hcon
      rw [List.length_map] at hlast
      omega
    · rw [if_neg hlast, hmap]
      exact ⟨[], (List.append_nil _).symm, fun _ => rfl⟩

theorem backout_preserves_concrete_witness :
    backout chemTriv [ResB.mk [cRxnN]] ([] : List CorefRec) = Except.ok [ResB.mk [cRxnN]] ∧
    (([ResB.mk [cRxnN]] : List ResB).length = ([ResB.mk [cRxnN]] : List ResB).length ∧
     ∀ i, i < ([ResB.mk [cRxnN]] : List ResB).length → ∃ em,
       (([ResB.mk [cRxnN]] : List ResB).getD i (ResB.mk [])).reactions =
         ((([ResB.mk [cRxnN]] : List ResB).getD i (ResB.mk [])).reactions.filter
           keepConcrete) ++ em ∧
       (i + 1 < ([ResB.mk [cRxnN]] : List ResB).length → em = [])) :=
  ⟨by decide,
   backout_preserves_concrete chemTriv [ResB.mk [cRxnN]] [] [ResB.mk [cRxnN]] (by decide)⟩

theorem ok_bind {ε α β : Type} (a : α) (f : α → Except ε β) :
    (Except.ok a >>= f : Except ε β) = f a := rfl

theorem error_bind {ε α β : Type} (e : ε) (f : α → Except ε β) :
    ((Except.error e : Except ε α) >>= f) = Except.error e := rfl

theorem snd_mem_of_mem_enumFrom {α : Type} :
    ∀ (l : List α) (n : Nat) (p : Nat × α), p ∈ l.enumFrom n → p.2 ∈ l := by
  intro l
  induction l with
  | nil => intro n p h; cases h
  | cons a t ih =>
      intro n p h
      rcases List.mem_cons.mp h with rfl | h2
      · exact List.Mem.head _
      · exact List.Mem.tail _ (ih (n + 1) p h2)

theorem clean_corefs_ok (d : List CorefRec) (hw : ∀ rec ∈ d, wfRec rec) (i : Nat) :
    ∃ v, clean_corefs d i = Except.ok v := by
  unfold clean_corefs
  cases hg : d.get? i with
  | none => exact ⟨none, rfl⟩
  | some res =>
      obtain ⟨h1, h2, h3⟩ := hw res (List.get?_mem hg)
      dsimp only
      cases hmb : res.mol_bboxes with
      | none => exact ⟨none, rfl⟩
      | some mbs =>
          dsimp only
          rw [hmb] at h1
          have h1' : mbs ≠ [] ∧ ∀ b ∈ mbs, b.smiles.isSome = true := h1
          cases mbs with
          | nil => exact absurd rfl h1'.1
          | cons b0 bs =>
              have hb0 : b0.smiles.isSome = true := h1'.2 b0 (List.Mem.head _)
              obtain ⟨mbt, hmbt⟩ := mapM_ok
                (fun (b : MBox) =>
                  (match b.smiles with
                   | some s => pure (b, s)
                   | none => Except.error PyErr.keyError : Except PyErr (MBox × String)))
                (b0 :: bs)
                (fun b hb => by
                  obtain ⟨s, hs⟩ := Option.isSome_iff_exists.mp (h1'.2 b hb)
                  exact ⟨(b, s), by dsimp only; rw [hs]; rfl⟩)
              dsimp only
              rw [hb0, if_pos rfl, hmbt, ok_bind]
              cases hidt : res.idt_bboxes with
              | none => exact ⟨none, rfl⟩
              | some fld =>
                  cases fld with
                  | notList => exact ⟨none, rfl⟩
                  | list ibs =>
                      rw [hidt] at h2
                      have h2' : ∀ b ∈ ibs, b.text.isSome = true := h2
                      obtain ⟨texts, htexts⟩ := mapM_ok
                        (fun (b : IBox) =>
                          (match b.text with
                           | some t => pure t
                           | none => Except.error PyErr.keyError : Except PyErr String))
                        ibs
                        (fun b hb => by
                          obtain ⟨t, ht⟩ := Option.isSome_iff_exists.mp (h2' b hb)
                          exact ⟨t, by dsimp only; rw [ht]; rfl⟩)
                      dsimp only
                      rw [htexts, ok_bind]
                      cases hbb : res.bboxes with
                      | none => rw [hbb] at h3; cases h3
                      | some bb => exact ⟨some (mbt, coref_assignments texts, bb), rfl⟩

theorem backoutInner_ok {μ : Type} (chem : ChemO μ) (results : List ResB)
    (cmap : List (String × String)) (rxn : Rxn) (ps : String)
    (hp : ∀ res ∈ results, wfRes res) :
    ∃ l, backoutInner chem results cmap rxn ps = Except.ok l := by
  unfold backoutInner
  refine foldlM_ok _ results ?_ []
  intro acc other_res hres
  refine foldlM_ok _ other_res.reactions ?_ acc
  intro acc' other hother
  rcases backoutInnerStep_shape chem cmap rxn ps acc' other with ⟨hnil, _⟩ | ⟨_, hok⟩
  · exact absurd hnil (hp other_res hres other hother)
  · exact ⟨_, hok⟩

theorem phase2RxnStep_ok {μ : Type} (chem : ChemO μ) (results : List ResB)
    (cmap : List (String × String)) (hp : ∀ res ∈ results, wfRes res)
    (emitted : List Rxn) (rxn : Rxn) (hrxn : rxn.products ≠ []) :
    ∃ l, phase2RxnStep chem results cmap emitted rxn = Except.ok l := by
  unfold phase2RxnStep
  cases hps : rxn.products with
  | nil => exact absurd hps hrxn
  | cons p rest =>
      have hpr : prodSmiles0 rxn = Except.ok p.smiles := by
        simp only [prodSmiles0, hps]
        rfl
      rw [hpr, ok_bind]
      cases p.smiles with
      | none => exact ⟨emitted, rfl⟩
      | some o =>
          cases o with
          | none => exact ⟨emitted, rfl⟩
          | some s =>
              dsimp only
              cases strHasChar s '*' with
              | false => exact ⟨emitted, rfl⟩
              | true =>
                  rw [if_pos rfl]
                  obtain ⟨l, hl⟩ := backoutInner_ok chem results cmap rxn s hp
                  rw [hl, ok_bind]
                  exact ⟨emitted ++ l, rfl⟩

theorem phase2Step_ok {μ : Type} (chem : ChemO μ) (results : List ResB)
    (corefs : List CorefRec) (hw : ∀ rec ∈ corefs, wfRec rec)
    (hp : ∀ res ∈ results, wfRes res) (emitted : List Rxn) (ir : Nat × ResB)
    (hir : ir.2 ∈ results) :
    ∃ l, phase2Step chem results corefs emitted ir = Except.ok l := by
  unfold phase2Step
  obtain ⟨v, hv⟩ := clean_corefs_ok corefs hw ir.1
  rw [hv, ok_bind]
  cases v with
  | none => exact ⟨emitted, rfl⟩
  | some co =>
      dsimp only
      refine foldlM_ok _ ir.2.reactions ?_ emitted
      intro acc rxn hrxn
      exact phase2RxnStep_ok chem results _ hp acc rxn (hp ir.2 hir rxn hrxn)

/-- C8 amended (partial): the claim is false as stated (see the
counterexample), but `backout` does return normally on every input whose
coreference records are fully populated (nonempty `mol_bboxes` with `smiles`
on each box, `text` on each identifier box, a `bboxes` entry) and whose
instances all have nonempty product lists. -/
theorem backout_total {μ : Type} (chem : ChemO μ) (results : List ResB)
    (corefs : List CorefRec)
    (hw : ∀ rec ∈ corefs, wfRec rec) (hp : ∀ res ∈ results, wfRes res) :
    ∃ finals, backout chem results corefs = Except.ok finals := by
  obtain ⟨finals0, hm⟩ := mapM_ok
    (fun res => do pure (ResB.mk (← backoutPhase1 res))) results
    (fun res hres => by
      obtain ⟨l, hl⟩ := foldlM_ok phase1Step res.reactions
        (fun acc rxn hrxn => by
          rcases phase1Step_shape acc rxn with ⟨hnil, _⟩ | ⟨_, hok⟩
          · exact absurd hnil (hp res hres rxn hrxn)
          · exact ⟨_, hok⟩)
        []
      refine ⟨ResB.mk l, ?_⟩
      have hl' : backoutPhase1 res = Except.ok l := hl
      show (backoutPhase1 res >>= fun x => pure (ResB.mk x)) = Except.ok (ResB.mk l)
      rw [hl', ok_bind]
      rfl)
  obtain ⟨emitted, hp2⟩ := foldlM_ok (phase2Step chem results corefs) results.enum
    (fun acc ir hir =>
      phase2Step_ok chem results corefs hw hp acc ir
        (snd_mem_of_mem_enumFrom results 0 ir hir))
    []
  have hp2' : backoutPhase2 chem results corefs = Except.ok emitted := hp2
  refine ⟨appendToLast finals0 emitted, ?_⟩
  unfold backout
  rw [hm, ok_bind]
  show (backoutPhase2 chem results corefs >>= fun emitted =>
      pure (appendToLast finals0 emitted)) = _
  rw [hp2', ok_bind]
  rfl

theorem backout_total_witness :
    (∀ rec ∈ [corefRecW], wfRec rec) ∧
    (∀ res ∈ [ResB.mk [cRxnN]], wfRes res) ∧
    ∃ finals, backout chemTriv [ResB.mk [cRxnN]] [corefRecW] = Except.ok finals := by
  have hw : ∀ rec ∈ [corefRecW], wfRec rec := by
    intro rec hrec
    cases hrec with
    | head => exact ⟨⟨by decide, by intro b hb; cases hb with
                       | head => rfl
                       | tail _ h => exact absurd h (List.not_mem_nil b)⟩,
                     by dsimp only [corefRecW]
                        exact fun b hb => absurd hb (List.not_mem_nil b),
                     by trivial⟩
    | tail _ h => exact absurd h (List.not_mem_nil rec)
  have hp : ∀ res ∈ [ResB.mk [cRxnN]], wfRes res := by
    intro res hres
    cases hres with
    | head =>
        intro rxn hrxn
        cases hrxn with
        | head => decide
        | tail _ h => exact absurd h (List.not_mem_nil rxn)
    | tail _ h => exact absurd h (List.not_mem_nil res)
  exact ⟨hw, hp, backout_total chemTriv [ResB.mk [cRxnN]] [corefRecW] hw hp⟩
